import Mathlib

/-!
Verification development for the pyinduct core layer (`pyinduct/core.py`).

The repository snapshot ships only the test suite (`pyinduct/tests/test_core.py`),
the visualization layer and the widgets; `core.py` itself is not part of the
snapshot.  Every definition below is therefore modelled from the natural
language specification (`spec.md`, sections 3, 4.1-4.6, 7, 8), with the test
suite pinning concrete values.  Pure numerical quantities are modelled over a
linear ordered field `K` (instantiated at `ℚ` for concrete evaluation and at
`ℝ` where square roots are required); adaptive quadrature of piecewise
polynomial integrands is modelled by the exact integral of the corresponding
polynomials; Python `TypeError` / `ValueError` are modelled by an error type
carried through `Except`.
-/

/-- Error kinds of section 7: `TypeKindError` and `ValueKindError`. -/
inductive Err where
  | typeError : String → Err
  | valueError : String → Err
deriving DecidableEq, Repr

section PolyLayer

variable {K : Type _} [LinearOrderedField K]

/-- Polynomials as coefficient lists (index `i` holds the coefficient of `x ^ i`);
used to model the scalar handles the core evaluates and integrates. -/
abbrev Coeffs (K : Type _) := List K

/-- Horner evaluation of a coefficient list. -/
def evalP : Coeffs K → K → K
  | [], _ => 0
  | c :: cs, x => c + x * evalP cs x

/-- Pointwise sum of two coefficient lists. -/
def addP : Coeffs K → Coeffs K → Coeffs K
  | [], q => q
  | p, [] => p
  | c :: cs, d :: ds => (c + d) :: addP cs ds

/-- Scalar multiple of a coefficient list. -/
def smulP (a : K) (p : Coeffs K) : Coeffs K := p.map (fun c => a * c)

/-- Product of two coefficient lists (convolution). -/
def mulP : Coeffs K → Coeffs K → Coeffs K
  | [], _ => []
  | c :: cs, q => addP (smulP c q) (0 :: mulP cs q)

/-- Modelled from the spec: the exact value of the integral of a polynomial
over `[a, b]` via the antiderivative, standing in for the adaptive quadrature
of `core.integrate_function` (section 4.4, "adaptive quadrature per
sub-interval ... must match closed-form values"). -/
def integP (p : Coeffs K) (a b : K) : K :=
  ∑ i ∈ Finset.range p.length,
    p.getD i 0 * (b ^ (i + 1) - a ^ (i + 1)) / (i + 1)

theorem evalP_addP (p q : Coeffs K) (x : K) :
    evalP (addP p q) x = evalP p x + evalP q x := by
  induction p generalizing q with
  | nil => simp [addP, evalP]
  | cons c cs ih =>
    cases q with
    | nil => simp [addP, evalP]
    | cons d ds => simp [addP, evalP, ih]; ring

theorem evalP_smulP (a : K) (p : Coeffs K) (x : K) :
    evalP (smulP a p) x = a * evalP p x := by
  induction p with
  | nil => simp [smulP, evalP]
  | cons c cs ih => simp [smulP, evalP] at *; rw [ih]; ring

theorem evalP_mulP (p q : Coeffs K) (x : K) :
    evalP (mulP p q) x = evalP p x * evalP q x := by
  induction p with
  | nil => simp [mulP, evalP]
  | cons c cs ih =>
    simp [mulP, evalP_addP, evalP_smulP, evalP, ih]; ring

theorem addP_nil_right (p : Coeffs K) : addP p [] = p := by
  cases p <;> rfl

theorem length_addP (p q : Coeffs K) :
    (addP p q).length = max p.length q.length := by
  induction p generalizing q with
  | nil => simp [addP]
  | cons c cs ih =>
    cases q with
    | nil => simp [addP]
    | cons d ds => simp [addP, ih]; omega

theorem getD_addP (p q : Coeffs K) (i : ℕ) :
    (addP p q).getD i 0 = p.getD i 0 + q.getD i 0 := by
  induction p generalizing q i with
  | nil => simp [addP]
  | cons c cs ih =>
    cases q with
    | nil => simp [addP]
    | cons d ds =>
      cases i with
      | zero => simp [addP]
      | succ j => simpa [addP] using ih ds j

theorem getD_smulP (a : K) (p : Coeffs K) (i : ℕ) :
    (smulP a p).getD i 0 = a * p.getD i 0 := by
  induction p generalizing i with
  | nil => simp [smulP]
  | cons c cs ih =>
    cases i with
    | zero => simp [smulP]
    | succ j => simpa [smulP] using ih j

/-- `integP` only depends on coefficients, so it can be rewritten as a sum over
any range covering the list length. -/
theorem integP_eq_sum_range (p : Coeffs K) (a b : K) (n : ℕ) (hn : p.length ≤ n) :
    integP p a b =
      ∑ i ∈ Finset.range n, p.getD i 0 * (b ^ (i + 1) - a ^ (i + 1)) / (i + 1) := by
  unfold integP
  apply Finset.sum_subset (Finset.range_subset.mpr hn)
  intro i _ hi
  simp only [Finset.mem_range, not_lt] at hi
  rw [List.getD_eq_default _ _ hi]
  simp

theorem integP_addP (p q : Coeffs K) (a b : K) :
    integP (addP p q) a b = integP p a b + integP q a b := by
  have hlen : (addP p q).length = max p.length q.length := length_addP p q
  rw [integP_eq_sum_range (addP p q) a b (max p.length q.length) (le_of_eq hlen),
    integP_eq_sum_range p a b (max p.length q.length) (le_max_left _ _),
    integP_eq_sum_range q a b (max p.length q.length) (le_max_right _ _),
    ← Finset.sum_add_distrib]
  apply Finset.sum_congr rfl
  intro i _
  rw [getD_addP]
  ring

theorem integP_smulP (c : K) (p : Coeffs K) (a b : K) :
    integP (smulP c p) a b = c * integP p a b := by
  have hlen : (smulP c p).length = p.length := by simp [smulP]
  rw [integP_eq_sum_range (smulP c p) a b p.length (le_of_eq hlen), integP,
    Finset.mul_sum]
  apply Finset.sum_congr rfl
  intro i _
  rw [getD_smulP]
  ring

theorem smulP_cons (a c : K) (cs : Coeffs K) :
    smulP a (c :: cs) = (a * c) :: smulP a cs := rfl

theorem addP_comm (p q : Coeffs K) : addP p q = addP q p := by
  induction p generalizing q with
  | nil => cases q <;> simp [addP]
  | cons x xs ih =>
    cases q with
    | nil => simp [addP]
    | cons y ys => simp [addP, add_comm]; exact ih ys

theorem addP_assoc (p q r : Coeffs K) :
    addP (addP p q) r = addP p (addP q r) := by
  induction p generalizing q r with
  | nil => simp [addP]
  | cons x xs ih =>
    cases q with
    | nil => simp [addP]
    | cons y ys =>
      cases r with
      | nil => simp [addP]
      | cons z zs => simp [addP, add_assoc]; exact ih ys zs

theorem addP_addP_addP_comm (p q u v : Coeffs K) :
    addP (addP p q) (addP u v) = addP (addP p u) (addP q v) := by
  rw [addP_assoc, ← addP_assoc q u v, addP_comm q u, addP_assoc u q v, ← addP_assoc]

theorem smulP_smulP (c a : K) (q : Coeffs K) :
    smulP c (smulP a q) = smulP (c * a) q := by
  simp [smulP, mul_assoc]

theorem smulP_addP (c : K) (u v : Coeffs K) :
    smulP c (addP u v) = addP (smulP c u) (smulP c v) := by
  induction u generalizing v with
  | nil => simp [addP, smulP]
  | cons x xs ih =>
    cases v with
    | nil => simp [addP, smulP]
    | cons y ys => simp [addP, smulP_cons, mul_add]; exact ih ys

theorem addP_smulP_distrib (c d : K) (r : Coeffs K) :
    smulP (c + d) r = addP (smulP c r) (smulP d r) := by
  induction r with
  | nil => simp [smulP, addP]
  | cons x xs ih => simp [smulP_cons, addP, add_mul]; exact ih

theorem zero_cons_addP (u v : Coeffs K) :
    (0 : K) :: addP u v = addP (0 :: u) (0 :: v) := by
  simp [addP]

theorem mulP_smulP_left (c : K) (p q : Coeffs K) :
    mulP (smulP c p) q = smulP c (mulP p q) := by
  induction p with
  | nil => simp [smulP, mulP]
  | cons a as ih =>
    rw [smulP_cons]
    show addP (smulP (c * a) q) (0 :: mulP (smulP c as) q) = _
    rw [ih, ← smulP_smulP]
    show _ = smulP c (addP (smulP a q) (0 :: mulP as q))
    rw [smulP_addP]
    congr 1
    rw [smulP_cons, mul_zero]

theorem mulP_addP_left (p q r : Coeffs K) :
    mulP (addP p q) r = addP (mulP p r) (mulP q r) := by
  induction p generalizing q with
  | nil => simp [addP, mulP]
  | cons c cs ih =>
    cases q with
    | nil => simp [addP, mulP, addP_nil_right]
    | cons d ds =>
      show addP (smulP (c + d) r) (0 :: mulP (addP cs ds) r) = _
      rw [ih ds, addP_smulP_distrib, zero_cons_addP,
        addP_addP_addP_comm]
      rfl

end PolyLayer

section IntervalLayer

variable {K : Type _} [LinearOrderedField K]

/-- An interval is a pair `(start, end)` (section 3). -/
abbrev Iv (K : Type _) := K × K

/-- Modelled from the spec (section 3): a well-formed Domain is an ordered set
of non-overlapping, non-touching intervals, each with `start ≤ end`. -/
def wfDomain (A : List (Iv K)) : Prop :=
  (∀ p ∈ A, p.1 ≤ p.2) ∧ A.Pairwise (fun p q => p.2 < q.1)

/-- Executable check of the interval-bound invariant (`start ≤ end`). -/
def boundsCheck (A : List (Iv K)) : Bool :=
  A.all (fun p => decide (p.1 ≤ p.2))

/-- Executable check that consecutive intervals are strictly increasing and
non-touching. -/
def sortedCheck : List (Iv K) → Bool
  | [] => true
  | [_] => true
  | p :: q :: rest => decide (p.2 < q.1) && sortedCheck (q :: rest)

/-- Executable form of the Domain invariant, mirroring the sequential checks of
the source (`interval boundaries in wrong order`, `intervals not ordered`). -/
def wfCheck (A : List (Iv K)) : Bool :=
  boundsCheck A && sortedCheck A

theorem and_true_split {a b : Bool} (h : (a && b) = true) : a = true ∧ b = true := by
  constructor
  · exact Bool.and_elim_left h
  · exact Bool.and_elim_right h

theorem sortedCheck_cons (p : Iv K) (rest : List (Iv K))
    (h : sortedCheck (p :: rest) = true) : sortedCheck rest = true := by
  cases rest with
  | nil => rfl
  | cons q t => exact (and_true_split h).2

theorem sortedCheck_head_lt (p : Iv K) (rest : List (Iv K))
    (hb : ∀ q ∈ rest, q.1 ≤ q.2) (h : sortedCheck (p :: rest) = true) :
    ∀ q ∈ rest, p.2 < q.1 := by
  induction rest generalizing p with
  | nil => intro q hq; cases hq
  | cons q t ih =>
    intro r hr
    have h1 : p.2 < q.1 := by
      have := (and_true_split h).1
      exact of_decide_eq_true this
    rcases List.mem_cons.mp hr with rfl | hrt
    · exact h1
    · have hq : q.1 ≤ q.2 := hb q (List.mem_cons_self _ _)
      have h2 : q.2 < r.1 := ih q (fun s hs => hb s (List.mem_cons_of_mem _ hs))
        (and_true_split h).2 r hrt
      exact lt_trans h1 (lt_of_le_of_lt hq h2)

theorem wfCheck_iff (A : List (Iv K)) : wfCheck A = true ↔ wfDomain A := by
  unfold wfCheck wfDomain
  rw [Bool.and_eq_true]
  constructor
  · rintro ⟨hb, hs⟩
    have hball : ∀ p ∈ A, p.1 ≤ p.2 := by
      intro p hp
      have := List.all_eq_true.mp hb p hp
      exact of_decide_eq_true this
    refine ⟨hball, ?_⟩
    induction A with
    | nil => exact List.Pairwise.nil
    | cons p rest ih =>
      refine List.Pairwise.cons ?_ ?_
      · exact sortedCheck_head_lt p rest
          (fun q hq => hball q (List.mem_cons_of_mem _ hq)) hs
      · exact ih (by
            simp only [boundsCheck, List.all_eq_true] at hb ⊢
            intro q hq; exact hb q (List.mem_cons_of_mem _ hq))
          (sortedCheck_cons p rest hs)
          (fun q hq => hball q (List.mem_cons_of_mem _ hq))
  · rintro ⟨hb, hp⟩
    constructor
    · simp only [boundsCheck, List.all_eq_true]
      intro p hpA
      exact decide_eq_true (hb p hpA)
    · induction A with
      | nil => rfl
      | cons p rest ih =>
        cases rest with
        | nil => rfl
        | cons q t =>
          rw [sortedCheck, Bool.and_eq_true]
          constructor
          · exact decide_eq_true ((List.pairwise_cons.mp hp).1 q
              (List.mem_cons_self _ _))
          · exact ih (fun r hr => hb r (List.mem_cons_of_mem _ hr))
              (List.pairwise_cons.mp hp).2

/-- The intersection of two single intervals, kept only when the overlap has
positive length (section 4.1: touching, zero-length overlaps are excluded). -/
def ivInter (a b : Iv K) : Option (Iv K) :=
  let s := max a.1 b.1
  let e := min a.2 b.2
  if s < e then some (s, e) else none

/-- Modelled from the spec (section 4.1): the list of positive-length pairwise
intersection intervals, in the order induced by the two sorted inputs. -/
def pairInter (A B : List (Iv K)) : List (Iv K) :=
  A.flatMap (fun a => B.filterMap (fun b => ivInter a b))

/-- Modelled from the spec: `core.domain_intersection` — fails with a
value-kind error if either argument violates the Domain invariant, otherwise
returns the ordered list of positive-length pairwise intersections. -/
def domain_intersection (A B : List (Iv K)) : Except Err (List (Iv K)) :=
  if wfCheck A && wfCheck B then Except.ok (pairInter A B)
  else Except.error (Err.valueError "intervals not ordered")

theorem mem_pairInter (A B : List (Iv K)) (p : Iv K) :
    p ∈ pairInter A B ↔
      ∃ a ∈ A, ∃ b ∈ B, max a.1 b.1 < min a.2 b.2 ∧ p = (max a.1 b.1, min a.2 b.2) := by
  simp only [pairInter, List.mem_flatMap, List.mem_filterMap]
  constructor
  · rintro ⟨a, ha, b, hb, hib⟩
    refine ⟨a, ha, b, hb, ?_⟩
    unfold ivInter at hib
    by_cases h : max a.1 b.1 < min a.2 b.2
    · simp [h] at hib; exact ⟨h, hib.symm⟩
    · simp [h] at hib
  · rintro ⟨a, ha, b, hb, h, hp⟩
    exact ⟨a, ha, b, hb, by simp [ivInter, h, hp]⟩

/-- Entries of a pairwise intersection have positive length. -/
theorem pairInter_pos (A B : List (Iv K)) (p : Iv K) (hp : p ∈ pairInter A B) :
    p.1 < p.2 := by
  rcases (mem_pairInter A B p).mp hp with ⟨a, _, b, _, h, rfl⟩
  exact h

/-- Every intersection entry lies inside the contributing interval of the
first argument. -/
theorem pairInter_bounds (A B : List (Iv K)) (p : Iv K) (hp : p ∈ pairInter A B) :
    ∃ a ∈ A, a.1 ≤ p.1 ∧ p.2 ≤ a.2 := by
  rcases (mem_pairInter A B p).mp hp with ⟨a, ha, b, _, _, rfl⟩
  exact ⟨a, ha, le_max_left _ _, min_le_left _ _⟩

theorem ivInter_mem_bounds {a b p : Iv K} (h : ivInter a b = some p) :
    max a.1 b.1 < min a.2 b.2 ∧ p = (max a.1 b.1, min a.2 b.2) := by
  unfold ivInter at h
  by_cases hc : max a.1 b.1 < min a.2 b.2
  · simp [hc] at h; exact ⟨hc, h.symm⟩
  · simp [hc] at h

/-- Sortedness of the group of intersections of one interval `a` against a
well-formed domain `B`. -/
theorem filterMap_ivInter_pairwise (a : Iv K) (B : List (Iv K))
    (hB : B.Pairwise (fun p q => p.2 < q.1)) :
    (B.filterMap (fun b => ivInter a b)).Pairwise (fun p q => p.2 < q.1) := by
  induction B with
  | nil => simp
  | cons b B' ih =>
    rw [List.filterMap_cons]
    rcases List.pairwise_cons.mp hB with ⟨hb, hB'⟩
    cases hcase : ivInter a b with
    | none => exact ih hB'
    | some p =>
      refine List.Pairwise.cons ?_ (ih hB')
      intro q hq
      rcases List.mem_filterMap.mp hq with ⟨b', hb', hq'⟩
      rcases ivInter_mem_bounds hcase with ⟨_, rfl⟩
      rcases ivInter_mem_bounds hq' with ⟨_, rfl⟩
      calc min a.2 b.2 ≤ b.2 := min_le_right _ _
        _ < b'.1 := hb b' hb'
        _ ≤ max a.1 b'.1 := le_max_right _ _

/-- The pairwise intersection of two well-formed domains is again strictly
sorted and non-touching. -/
theorem pairInter_pairwise_aux (A B : List (Iv K))
    (hA2 : A.Pairwise (fun p q => p.2 < q.1))
    (hB2 : B.Pairwise (fun p q => p.2 < q.1)) :
    (pairInter A B).Pairwise (fun p q => p.2 < q.1) := by
  induction A with
  | nil => simp [pairInter]
  | cons a A' ih =>
    rcases List.pairwise_cons.mp hA2 with ⟨ha, hA2'⟩
    show ((B.filterMap (fun b => ivInter a b)) ++ pairInter A' B).Pairwise _
    rw [List.pairwise_append]
    refine ⟨filterMap_ivInter_pairwise a B hB2, ih hA2', ?_⟩
    intro p hp q hq
    rcases List.mem_filterMap.mp hp with ⟨b, _, hpb⟩
    rcases ivInter_mem_bounds hpb with ⟨_, rfl⟩
    rcases pairInter_bounds A' B q hq with ⟨a', ha', h1, _⟩
    calc min a.2 b.2 ≤ a.2 := min_le_left _ _
      _ < a'.1 := ha a' ha'
      _ ≤ q.1 := h1

theorem pairInter_pairwise (A B : List (Iv K)) (hA : wfDomain A) (hB : wfDomain B) :
    (pairInter A B).Pairwise (fun p q => p.2 < q.1) :=
  pairInter_pairwise_aux A B hA.2 hB.2

/-- The single-interval intersection is symmetric. -/
theorem ivInter_comm (a b : Iv K) : ivInter a b = ivInter b a := by
  unfold ivInter
  rw [max_comm, min_comm]

theorem filterMap_eq_flatMap_toList {α β : Type _} (f : α → Option β) (l : List α) :
    l.filterMap f = l.flatMap (fun x => (f x).toList) := by
  induction l with
  | nil => rfl
  | cons x xs ih =>
    rw [List.filterMap_cons, List.flatMap_cons, ← ih]
    cases f x <;> simp

/-- The two evaluation orders of the double union produce the same multiset of
intervals. -/
theorem pairInter_perm (A B : List (Iv K)) :
    List.Perm (pairInter A B) (pairInter B A) := by
  rw [← Multiset.coe_eq_coe]
  unfold pairInter
  have hform : ∀ (X Y : List (Iv K)),
      (X.flatMap (fun a => Y.filterMap (fun b => ivInter a b)) : Multiset (Iv K)) =
        (X : Multiset (Iv K)).bind
          (fun a => (Y : Multiset (Iv K)).bind
            (fun b => ((ivInter a b).toList : Multiset (Iv K)))) := by
    intro X Y
    rw [← Multiset.coe_bind]
    congr 1
    funext a
    rw [filterMap_eq_flatMap_toList, ← Multiset.coe_bind]
  rw [hform A B, hform B A, Multiset.bind_bind]
  congr 1
  funext b
  congr 1
  funext a
  rw [ivInter_comm]

/-- A list sorted by strictly increasing starts is determined by its multiset
of elements. -/
theorem pairInter_comm (A B : List (Iv K)) (hA : wfDomain A) (hB : wfDomain B) :
    pairInter A B = pairInter B A := by
  haveI : IsAntisymm (Iv K) (fun p q => p.1 < q.1) :=
    ⟨fun p q h1 h2 => absurd (lt_trans h1 h2) (lt_irrefl _)⟩
  have hs1 : List.Sorted (fun (p q : Iv K) => p.1 < q.1) (pairInter A B) :=
    ((pairInter_pairwise A B hA hB).imp_of_mem
      (fun hp _ h => lt_of_lt_of_le (pairInter_pos _ _ _ hp) (le_of_lt h)))
  have hs2 : List.Sorted (fun (p q : Iv K) => p.1 < q.1) (pairInter B A) :=
    ((pairInter_pairwise B A hB hA).imp_of_mem
      (fun hp _ h => lt_of_lt_of_le (pairInter_pos _ _ _ hp) (le_of_lt h)))
  exact List.eq_of_perm_of_sorted (pairInter_perm A B) hs1 hs2

end IntervalLayer

section FunctionLayer

variable {K : Type _} [LinearOrderedField K]

/-- One polynomial piece of a scalar handle: the polynomial `poly` on the
interval `[lo, hi]`.  Outside all of its pieces a handle evaluates to zero. -/
structure Piece (K : Type _) where
  lo : K
  hi : K
  poly : Coeffs K
deriving DecidableEq

/-- Modelled from the spec (section 3 / 4.2): `core.Function`, a `BaseFraction`
wrapping a scalar handle (modelled as a piecewise polynomial), a `domain`, a
compact-support `nonzero` domain, the ordered list of derivative handles, and
the immutable vectorization classification probed at construction. -/
structure PyFunction (K : Type _) where
  pieces : List (Piece K)
  domain : List (Iv K)
  nonzero : List (Iv K)
  derivative_handles : List (List (Piece K))
  vectorial : Bool
deriving DecidableEq

/-- Evaluation of a piecewise handle: the first piece containing `x` applies,
and the handle is zero outside all pieces. -/
def pwEval (ps : List (Piece K)) (x : K) : K :=
  match ps.find? (fun p => decide (p.lo ≤ x) && decide (x ≤ p.hi)) with
  | some p => evalP p.poly x
  | none => 0

/-- Executable membership check of a value in a Domain. -/
def inDomainB (D : List (Iv K)) (x : K) : Bool :=
  D.any (fun iv => decide (iv.1 ≤ x) && decide (x ≤ iv.2))

/-- Modelled from the spec (section 4.2 call contract): a scalar call checks
the domain and fails hard outside it; inside the domain it returns a plain
numeric scalar. -/
def PyFunction.callScalar (f : PyFunction K) (x : K) : Except Err K :=
  if inDomainB f.domain x then Except.ok (pwEval f.pieces x)
  else Except.error (Err.valueError "argument not in domain")

/-- Modelled from the spec (section 4.2): the vectorized path hands the whole
array to the handle at once; for the pure mathematical handle of the shallow
embedding this is exactly element-wise application. -/
def vectorizedPath (f : PyFunction K) (xs : List K) : List K :=
  xs.map (fun x => pwEval f.pieces x)

/-- Modelled from the spec (section 4.2): the scalar-only path loops over the
array applying the handle element-wise. -/
def elementwisePath (f : PyFunction K) (xs : List K) : List K :=
  xs.map (fun x => pwEval f.pieces x)

/-- Modelled from the spec (section 4.2 call contract): an array call checks
the domain of every entry, then dispatches on the cached vectorization
classification. -/
def PyFunction.callArray (f : PyFunction K) (xs : List K) : Except Err (List K) :=
  if xs.all (fun x => inDomainB f.domain x) then
    Except.ok (if f.vectorial then vectorizedPath f xs else elementwisePath f xs)
  else Except.error (Err.valueError "argument not in domain")

/-- Modelled from the spec (section 4.2): `Function.derive` with the checks on
the derivative order; order `0` returns an equal object, a positive order
shifts into the stored derivative-handle list. -/
def PyFunction.derive (f : PyFunction K) (order : ℤ) : Except Err (PyFunction K) :=
  if order < 0 then Except.error (Err.valueError "only derivative order greater or equal 0 supported")
  else if order = 0 then Except.ok f
  else if order.toNat ≤ f.derivative_handles.length then
    Except.ok { f with
      pieces := f.derivative_handles.getD (order.toNat - 1) [],
      derivative_handles := f.derivative_handles.drop order.toNat }
  else Except.error (Err.valueError "derivative handles exhausted")

/-- Scale every polynomial of a piecewise handle by a constant. -/
def scalePieces (c : K) (ps : List (Piece K)) : List (Piece K) :=
  ps.map (fun p => ⟨p.lo, p.hi, smulP c p.poly⟩)

/-- Modelled from the spec (section 4.2): scaling by a constant; the trivial
factor `1` returns a self-equal object, and derivative handles are scaled
identically. -/
def PyFunction.scale (f : PyFunction K) (c : K) : PyFunction K :=
  if c = 1 then f
  else { f with
    pieces := scalePieces c f.pieces,
    derivative_handles := f.derivative_handles.map (fun h => scalePieces c h) }

/-- The pointwise product of two piecewise handles, on the common refinement of
their pieces. -/
def pwMulPieces (F G : List (Piece K)) : List (Piece K) :=
  F.flatMap (fun p => G.filterMap (fun q =>
    let s := max p.lo q.lo
    let e := min p.hi q.hi
    if s < e then some ⟨s, e, mulP p.poly q.poly⟩ else none))

/-- Modelled from the spec (section 4.2): scaling by a general callable
(itself a piecewise handle `g`) returns the pointwise product and fully
invalidates the derivative handles. -/
def PyFunction.scaleFun (f : PyFunction K) (g : List (Piece K)) : PyFunction K :=
  { f with pieces := pwMulPieces g f.pieces, derivative_handles := [] }

/-- Iterated polynomial power. -/
def powP (p : Coeffs K) : ℕ → Coeffs K
  | 0 => [1]
  | n + 1 => mulP p (powP p n)

/-- Modelled from the spec (section 4.2): `raise_to`; power `1` returns a
self-equal object, any other power raises the handle pointwise and
invalidates the derivative handles exactly like a callable scaling. -/
def PyFunction.raise_to (f : PyFunction K) (pow : ℕ) : PyFunction K :=
  if pow = 1 then f
  else { f with
    pieces := f.pieces.map (fun p => ⟨p.lo, p.hi, powP p.poly pow⟩),
    derivative_handles := [] }

end FunctionLayer

section DotLayer

variable {K : Type _} [LinearOrderedField K]

/-- Exact integral of the product of two piecewise handles over one interval:
each pair of pieces contributes the exact integral of its polynomial product
over the triple overlap.  This models the adaptive quadrature of
`integrate_function` on the piecewise-polynomial handles of the embedding. -/
def integOn (F G : List (Piece K)) (iv : Iv K) : K :=
  (F.map (fun p => (G.map (fun q =>
    let s := max iv.1 (max p.lo q.lo)
    let e := min iv.2 (min p.hi q.hi)
    if s < e then integP (mulP p.poly q.poly) s e else 0)).sum)).sum

/-- Modelled from the spec (section 4.4): the integration region of
`_dot_product_l2` — the intersection of both domains intersected with the
intersection of both supports, all via the domain algebra of section 4.1. -/
def intersectAll (f g : PyFunction K) : List (Iv K) :=
  pairInter (pairInter f.domain g.domain) (pairInter f.nonzero g.nonzero)

/-- Modelled from the spec (section 4.4): `core._dot_product_l2` for two
scalar real-valued functions — the exact L2 inner product over the
intersection of domains and supports; an empty intersection yields exactly 0
without any integration. -/
def dot_product_l2 (f g : PyFunction K) : K :=
  ((intersectAll f g).map (fun iv => integOn f.pieces g.pieces iv)).sum

/-- Modelled from the spec (section 8): `core.LagrangeFirstOrder s t e` — the
piecewise-linear hat rising from 0 at `s` to 1 at `t` and falling back to 0 at
`e`, with its piecewise-constant first derivative handle, supported on
`(s, e)`. -/
def LagrangeFirstOrder (s t e : K) : PyFunction K :=
  { pieces :=
      (if s < t then [⟨s, t, [-s / (t - s), 1 / (t - s)]⟩] else []) ++
        (if t < e then [⟨t, e, [e / (e - t), -1 / (e - t)]⟩] else []),
    domain := [(s, e)],
    nonzero := [(s, e)],
    derivative_handles :=
      [(if s < t then [⟨s, t, [1 / (t - s)]⟩] else []) ++
        (if t < e then [⟨t, e, [-1 / (e - t)]⟩] else [])],
    vectorial := true }

end DotLayer

section ConcreteFunctions

/-- A constant function `c` on the single interval `(a, b)`, with the default
`nonzero = domain` of the `Function` constructor. -/
def pyConst {K : Type _} [LinearOrderedField K] (c a b : K) : PyFunction K :=
  { pieces := [⟨a, b, [c]⟩],
    domain := [(a, b)],
    nonzero := [(a, b)],
    derivative_handles := [],
    vectorial := true }

end ConcreteFunctions

set_option maxHeartbeats 2000000 in
/-- Claim C1: for two scalar-valued Functions, `dot_product_l2` is the exact
L2 integral of the product restricted to the intersection of both domains and
both supports; an empty intersection yields exactly 0 with no integration and
no failure; the constant pair f = 1 on (0,10), g = 2 on (0,5) gives 10, and
the unit-spaced first-order Lagrange hats give self product 2/3, half-overlap
product 1/6 and 0 for disjoint hats. -/
theorem C1_dot_product_l2_spec :
    (∀ (f g : PyFunction ℚ), intersectAll f g = [] → dot_product_l2 f g = 0) ∧
    dot_product_l2 (pyConst (1 : ℚ) 0 10) (pyConst 2 0 5) = 10 ∧
    dot_product_l2 (LagrangeFirstOrder (0 : ℚ) 1 2) (LagrangeFirstOrder 2 3 4) = 0 ∧
    dot_product_l2 (LagrangeFirstOrder (0 : ℚ) 1 2) (LagrangeFirstOrder 1 2 3) = 1 / 6 ∧
    dot_product_l2 (LagrangeFirstOrder (2 : ℚ) 3 4) (LagrangeFirstOrder 1 2 3) = 1 / 6 ∧
    dot_product_l2 (LagrangeFirstOrder (0 : ℚ) 1 2) (LagrangeFirstOrder 0 1 2) = 2 / 3 := by
  refine ⟨?_, ?_, ?_, ?_, ?_, ?_⟩
  · intro f g h
    simp [dot_product_l2, h]
  all_goals
    norm_num [dot_product_l2, intersectAll, LagrangeFirstOrder, pyConst, pairInter, ivInter,
      integOn, integP, mulP, smulP, addP, max_def, min_def, Finset.sum_range_succ,
      List.filterMap_cons, List.flatMap_cons, List.map_cons, List.sum_cons,
      List.sum_nil, List.filterMap_nil, List.flatMap_nil, List.append_nil, List.nil_append,
      List.cons_append, List.map_nil]

/-- Witness for C1: the two non-overlapping hats have an empty intersection
region, and the empty-intersection clause of the claim applies to them. -/
theorem C1_dot_product_l2_spec_witness :
    intersectAll (LagrangeFirstOrder (0 : ℚ) 1 2) (LagrangeFirstOrder 2 3 4) = [] ∧
    dot_product_l2 (LagrangeFirstOrder (0 : ℚ) 1 2) (LagrangeFirstOrder 2 3 4) = 0 := by
  have h : intersectAll (LagrangeFirstOrder (0 : ℚ) 1 2) (LagrangeFirstOrder 2 3 4) = [] := by
    norm_num [intersectAll, LagrangeFirstOrder, pairInter, ivInter, max_def, min_def,
      List.filterMap_cons, List.flatMap_cons, List.filterMap_nil, List.flatMap_nil]
  exact ⟨h, C1_dot_product_l2_spec.1 _ _ h⟩

/-- Claim C5: on well-formed Domains, `domain_intersection` succeeds and
returns exactly the positive-length pairwise overlap intervals
`(max start, min end)`, in sorted non-touching order; touching pairs
contribute nothing, so `(0,2) ∩ (1,3) = [(1,2)]` and `(0,1) ∩ (1,3) = []`. -/
theorem C5_domain_intersection_spec :
    (∀ (A B : List (Iv ℚ)), wfDomain A → wfDomain B →
      domain_intersection A B = Except.ok (pairInter A B) ∧
      (∀ p, p ∈ pairInter A B ↔
        ∃ a ∈ A, ∃ b ∈ B, max a.1 b.1 < min a.2 b.2 ∧ p = (max a.1 b.1, min a.2 b.2)) ∧
      (pairInter A B).Pairwise (fun p q => p.2 < q.1)) ∧
    domain_intersection [((0 : ℚ), 2)] [(1, 3)] = Except.ok [(1, 2)] ∧
    domain_intersection [((0 : ℚ), 1)] [(1, 3)] = Except.ok [] := by
  refine ⟨?_, ?_, ?_⟩
  · intro A B hA hB
    refine ⟨?_, mem_pairInter A B, pairInter_pairwise A B hA hB⟩
    unfold domain_intersection
    rw [(wfCheck_iff A).mpr hA, (wfCheck_iff B).mpr hB]
    rfl
  all_goals
    norm_num [domain_intersection, wfCheck, boundsCheck, sortedCheck, pairInter, ivInter,
      max_def, min_def, List.filterMap_cons, List.flatMap_cons, List.filterMap_nil,
      List.flatMap_nil]

/-- Witness for C5: the universally quantified clause applied to the two
concrete well-formed domains of the test suite. -/
theorem C5_domain_intersection_spec_witness :
    domain_intersection [((0 : ℚ), 2), (3, 5)] [(1, 4)]
        = Except.ok (pairInter [((0 : ℚ), 2), (3, 5)] [(1, 4)]) ∧
    (pairInter [((0 : ℚ), 2), (3, 5)] [(1, 4)]).Pairwise (fun p q => p.2 < q.1) := by
  have hA : wfDomain [((0 : ℚ), 2), (3, 5)] := by
    constructor
    · intro p hp
      simp at hp
      rcases hp with h | h <;> rw [h] <;> norm_num
    · norm_num
  have hB : wfDomain [((1 : ℚ), 4)] := by
    constructor
    · intro p hp
      simp at hp
      rw [hp]; norm_num
    · norm_num
  have h := C5_domain_intersection_spec.1 [((0 : ℚ), 2), (3, 5)] [(1, 4)] hA hB
  exact ⟨h.1, h.2.2⟩

/-- Claim C6: `domain_intersection` is commutative on well-formed Domains. -/
theorem C6_domain_intersection_comm :
    ∀ (A B : List (Iv ℚ)), wfDomain A → wfDomain B →
      domain_intersection A B = domain_intersection B A := by
  intro A B hA hB
  unfold domain_intersection
  rw [(wfCheck_iff A).mpr hA, (wfCheck_iff B).mpr hB]
  simp only [Bool.and_true, Bool.true_and]
  rw [pairInter_comm A B hA hB]

/-- Witness for C6: commutativity applied to two concrete well-formed
domains with a non-trivial overlap pattern. -/
theorem C6_domain_intersection_comm_witness :
    domain_intersection [((1 : ℚ), 3), (4, 6)] [(0, 2), (3, 5)]
      = domain_intersection [((0 : ℚ), 2), (3, 5)] [(1, 3), (4, 6)] := by
  have hA : wfDomain [((1 : ℚ), 3), (4, 6)] := by
    constructor
    · intro p hp
      simp at hp
      rcases hp with h | h <;> rw [h] <;> norm_num
    · norm_num
  have hB : wfDomain [((0 : ℚ), 2), (3, 5)] := by
    constructor
    · intro p hp
      simp at hp
      rcases hp with h | h <;> rw [h] <;> norm_num
    · norm_num
  exact C6_domain_intersection_comm [((1 : ℚ), 3), (4, 6)] [(0, 2), (3, 5)] hA hB

/-- Claim C7: a scalar call outside the domain fails with a value error, a
scalar call inside the domain returns a plain scalar, and an array call (with
all entries in the domain) returns a list of the same length whose entries
are the element-wise application of the handle — identically for both
vectorization classifications. -/
theorem C7_call_contract :
    ∀ (f : PyFunction ℚ) (x : ℚ) (xs : List ℚ) (b : Bool),
      (inDomainB f.domain x = false →
        f.callScalar x = Except.error (Err.valueError "argument not in domain")) ∧
      (inDomainB f.domain x = true →
        f.callScalar x = Except.ok (pwEval f.pieces x)) ∧
      (xs.all (fun y => inDomainB f.domain y) = true →
        PyFunction.callArray { f with vectorial := b } xs
          = Except.ok (xs.map (fun y => pwEval f.pieces y)) ∧
        (xs.map (fun y => pwEval f.pieces y)).length = xs.length) := by
  intro f x xs b
  refine ⟨?_, ?_, ?_⟩
  · intro h
    simp [PyFunction.callScalar, h]
  · intro h
    simp [PyFunction.callScalar, h]
  · intro h
    constructor
    · have hall : (xs.all (fun y => inDomainB ({ f with vectorial := b } :
          PyFunction ℚ).domain y)) = true := h
      cases b <;>
        simp [PyFunction.callArray, hall, vectorizedPath, elementwisePath]
    · simp

/-- Witness for C7: the contract applied to the concrete constant function on
(0, 10) of the test suite, at an outside point, an inside point and a
concrete array. -/
theorem C7_call_contract_witness :
    (pyConst (1 : ℚ) 0 10).callScalar 11
        = Except.error (Err.valueError "argument not in domain") ∧
    (pyConst (1 : ℚ) 0 10).callScalar 5 = Except.ok (pwEval (pyConst (1 : ℚ) 0 10).pieces 5) ∧
    PyFunction.callArray { pyConst (1 : ℚ) 0 10 with vectorial := false } [0, 5, 10]
        = Except.ok ([0, 5, 10].map (fun y => pwEval (pyConst (1 : ℚ) 0 10).pieces y)) := by
  have h := C7_call_contract (pyConst (1 : ℚ) 0 10) 11 [0, 5, 10] false
  have h5 := C7_call_contract (pyConst (1 : ℚ) 0 10) 5 [0, 5, 10] false
  refine ⟨h.1 ?_, h5.2.1 ?_, (h.2.2 ?_).1⟩ <;>
    norm_num [inDomainB, pyConst]

/-- Claim C8: `derive 0` returns an equal object; for `0 < k ≤ |H|` the
result keeps all attributes except that the handle becomes `H[k-1]` and the
stored list becomes the tail from index `k`; negative orders and orders
beyond the stored handles fail with a value error; and after the handle list
has been invalidated by a callable scaling or by `raise_to` with power other
than one, every positive order fails with a value error. -/
theorem C8_derive_spec :
    ∀ (f : PyFunction ℚ) (k : ℤ),
      (f.derive 0 = Except.ok f) ∧
      (k < 0 → f.derive k
        = Except.error (Err.valueError "only derivative order greater or equal 0 supported")) ∧
      (0 < k → k.toNat ≤ f.derivative_handles.length →
        f.derive k = Except.ok { f with
          pieces := f.derivative_handles.getD (k.toNat - 1) [],
          derivative_handles := f.derivative_handles.drop k.toNat }) ∧
      (0 < k → f.derivative_handles.length < k.toNat →
        f.derive k = Except.error (Err.valueError "derivative handles exhausted")) ∧
      (∀ g, 0 < k → (f.scaleFun g).derive k
        = Except.error (Err.valueError "derivative handles exhausted")) ∧
      (∀ (p : ℕ), p ≠ 1 → 0 < k → (f.raise_to p).derive k
        = Except.error (Err.valueError "derivative handles exhausted")) := by
  intro f k
  refine ⟨?_, ?_, ?_, ?_, ?_, ?_⟩
  · simp [PyFunction.derive]
  · intro h
    simp [PyFunction.derive, h]
  · intro h1 h2
    have hk0 : ¬ k < 0 := by omega
    have hkne : ¬ k = 0 := by omega
    simp [PyFunction.derive, hk0, hkne, h2]
  · intro h1 h2
    have hk0 : ¬ k < 0 := by omega
    have hkne : ¬ k = 0 := by omega
    have h2' : ¬ k.toNat ≤ f.derivative_handles.length := by omega
    simp [PyFunction.derive, hk0, hkne, h2']
  · intro g h1
    have hk0 : ¬ k < 0 := by omega
    have hkne : ¬ k = 0 := by omega
    have hlen : ((f.scaleFun g).derivative_handles).length = 0 := by
      simp [PyFunction.scaleFun]
    have h2' : ¬ k.toNat ≤ ((f.scaleFun g).derivative_handles).length := by
      rw [hlen]; omega
    simp [PyFunction.derive, hk0, hkne, h2']
  · intro p hp h1
    have hk0 : ¬ k < 0 := by omega
    have hkne : ¬ k = 0 := by omega
    have hlen : ((f.raise_to p).derivative_handles).length = 0 := by
      simp [PyFunction.raise_to, hp]
    have h2' : ¬ k.toNat ≤ ((f.raise_to p).derivative_handles).length := by
      rw [hlen]; omega
    simp [PyFunction.derive, hk0, hkne, h2']

/-- Witness for C8: the derivative bookkeeping applied to the Lagrange hat,
which stores exactly one derivative handle, at order 1 (in range), order 2
(out of range), order -1 (negative) and after `raise_to 2`. -/
theorem C8_derive_spec_witness :
    (LagrangeFirstOrder (0 : ℚ) 1 2).derive 0 = Except.ok (LagrangeFirstOrder (0 : ℚ) 1 2) ∧
    (LagrangeFirstOrder (0 : ℚ) 1 2).derive (-1)
      = Except.error (Err.valueError "only derivative order greater or equal 0 supported") ∧
    (LagrangeFirstOrder (0 : ℚ) 1 2).derive 1 = Except.ok
      { LagrangeFirstOrder (0 : ℚ) 1 2 with
        pieces := (LagrangeFirstOrder (0 : ℚ) 1 2).derivative_handles.getD 0 [],
        derivative_handles := [] } ∧
    (LagrangeFirstOrder (0 : ℚ) 1 2).derive 2
      = Except.error (Err.valueError "derivative handles exhausted") ∧
    ((LagrangeFirstOrder (0 : ℚ) 1 2).raise_to 2).derive 1
      = Except.error (Err.valueError "derivative handles exhausted") := by
  have h1 := C8_derive_spec (LagrangeFirstOrder (0 : ℚ) 1 2) 1
  have h2 := C8_derive_spec (LagrangeFirstOrder (0 : ℚ) 1 2) 2
  have hm := C8_derive_spec (LagrangeFirstOrder (0 : ℚ) 1 2) (-1)
  have hlen : (LagrangeFirstOrder (0 : ℚ) 1 2).derivative_handles.length = 1 := by
    norm_num [LagrangeFirstOrder]
  refine ⟨h1.1, hm.2.1 (by norm_num), ?_, ?_, ?_⟩
  · have := h1.2.2.1 (by norm_num) (by rw [hlen]; norm_num)
    simpa using this
  · exact h2.2.2.2.1 (by norm_num) (by rw [hlen]; norm_num)
  · exact h1.2.2.2.2.2 2 (by norm_num) (by norm_num)

section MatrixBuilder

variable {K : Type _} [LinearOrderedField K]

/-- Modelled from the spec (section 4.4): `core.calculate_scalar_product_matrix`
builds the dense matrix `M[i,j] = product(base_a[i], base_b[j])` (rows over
`base_a`, columns over `base_b`).  When the optimization is requested and both
bases are the same object, only the upper triangle is computed and mirrored;
otherwise every entry is computed independently. -/
def calculate_scalar_product_matrix {α : Type _} [DecidableEq α] [Inhabited α]
    (product : α → α → K) (A B : List α) (optimize : Bool) : List (List K) :=
  if optimize = true ∧ A = B then
    (List.range A.length).map (fun i => (List.range A.length).map (fun j =>
      if i ≤ j then product (A.getD i default) (A.getD j default)
      else product (A.getD j default) (A.getD i default)))
  else A.map (fun a => B.map (fun b => product a b))

theorem calc_matrix_opt_eq_unopt {α : Type _} [DecidableEq α] [Inhabited α]
    (product : α → α → K) (A B : List α)
    (hsym : ∀ x y, product x y = product y x) :
    calculate_scalar_product_matrix product A B true
      = calculate_scalar_product_matrix product A B false := by
  unfold calculate_scalar_product_matrix
  by_cases hAB : A = B
  · subst hAB
    rw [if_pos ⟨rfl, rfl⟩, if_neg (by simp)]
    apply List.ext_getElem
    · simp
    intro i hi hi'
    simp only [List.length_map, List.length_range] at hi
    apply List.ext_getElem
    · simp
    intro j hj hj'
    simp only [List.getElem_map, List.getElem_range, List.length_map,
      List.length_range] at hj
    simp only [List.getElem_map, List.getElem_range]
    rw [List.getD_eq_getElem A default hi, List.getD_eq_getElem A default hj]
    split_ifs with hij
    · rfl
    · exact hsym _ _
  · simp [hAB]

end MatrixBuilder

/-- Claim C3: for every symmetric product function and every pair of bases,
the matrix entries are `product(base_a[i], base_b[j])` and the result is
identical with and without the symmetry optimization, both in the square and
in the rectangular case. -/
theorem C3_scalar_product_matrix_opt :
    ∀ {α : Type} [DecidableEq α] [Inhabited α]
      (product : α → α → ℚ) (A B : List α) (o1 o2 : Bool),
      (∀ x y, product x y = product y x) →
      (calculate_scalar_product_matrix product A B false
        = A.map (fun a => B.map (fun b => product a b))) ∧
      calculate_scalar_product_matrix product A B o1
        = calculate_scalar_product_matrix product A B o2 := by
  intro α _ _ product A B o1 o2 hsym
  constructor
  · simp [calculate_scalar_product_matrix]
  · cases o1 <;> cases o2 <;>
      simp [calc_matrix_opt_eq_unopt product A B hsym]

/-- Witness for C3: the optimization equivalence applied to the concrete
symmetric product `dot_product_l2` on a square pair of one-element bases and
on a rectangular pair. -/
theorem C3_scalar_product_matrix_opt_witness :
    calculate_scalar_product_matrix (fun x y : ℚ => x * y) [1, 2] [1, 2] true
      = calculate_scalar_product_matrix (fun x y : ℚ => x * y) [1, 2] [1, 2] false ∧
    calculate_scalar_product_matrix (fun x y : ℚ => x * y) [1, 2] [1, 2, 3] true
      = calculate_scalar_product_matrix (fun x y : ℚ => x * y) [1, 2] [1, 2, 3] false := by
  constructor
  · exact (C3_scalar_product_matrix_opt (fun x y : ℚ => x * y) [1, 2] [1, 2] true false
      (fun x y => mul_comm x y)).2
  · exact (C3_scalar_product_matrix_opt (fun x y : ℚ => x * y) [1, 2] [1, 2, 3] true false
      (fun x y => mul_comm x y)).2

section RootFinder

variable {K : Type _} [LinearOrderedField K]

/-- Modelled from the spec (section 4.6 step 2): candidate root locations are
the consecutive grid pairs over which the function changes sign (or hits
zero). -/
def signChangeBrackets (f : K → K) (grid : List K) : List (Iv K) :=
  (grid.zip grid.tail).filter (fun ab => decide (f ab.1 * f ab.2 ≤ 0))

/-- Modelled from the spec (section 4.6 step 3): local root polishing by
bisection, keeping the sub-bracket over which the sign still changes. -/
def bisect (f : K → K) : ℕ → K → K → K
  | 0, a, b => (a + b) / 2
  | n + 1, a, b =>
    let m := (a + b) / 2
    if f m = 0 then m
    else if f a * f m ≤ 0 then bisect f n a m
    else bisect f n m b

/-- Modelled from the spec (section 4.6 step 4): deduplication keeps only the
first representative of every cluster of roots closer than `rtol`. -/
def dedupRoots (rtol : K) (rs : List K) : List K :=
  rs.foldl (fun acc r => if acc.any (fun k => decide (|r - k| < rtol)) then acc
    else acc ++ [r]) []

/-- Modelled from the spec (section 4.6): `core.find_roots` in the real scalar
case — bracket, polish, deduplicate, sort ascending, then fail hard with a
value error when fewer than `n_roots` distinct roots remain, otherwise return
exactly `n_roots` of them. -/
def find_roots (f : K → K) (grid : List K) (n_roots : ℕ) (rtol : K) :
    Except Err (List K) :=
  let cands := (signChangeBrackets f grid).map (fun ab => bisect f 50 ab.1 ab.2)
  let ded := dedupRoots rtol cands
  let sorted := List.insertionSort (fun a b => a ≤ b) ded
  if sorted.length < n_roots then
    Except.error (Err.valueError "not enough roots detected")
  else Except.ok (sorted.take n_roots)

end RootFinder

/-- Claim C4: `find_roots` fails with a value error exactly when fewer than
`n_roots` distinct roots remain after deduplication (never a truncated
result), and otherwise returns exactly `n_roots` roots sorted ascending. -/
theorem C4_find_roots_spec :
    ∀ (f : ℚ → ℚ) (grid : List ℚ) (n : ℕ) (rtol : ℚ),
      ((dedupRoots rtol ((signChangeBrackets f grid).map
          (fun ab => bisect f 50 ab.1 ab.2))).length < n →
        find_roots f grid n rtol
          = Except.error (Err.valueError "not enough roots detected")) ∧
      (n ≤ (dedupRoots rtol ((signChangeBrackets f grid).map
          (fun ab => bisect f 50 ab.1 ab.2))).length →
        ∃ rs, find_roots f grid n rtol = Except.ok rs) ∧
      (∀ rs, find_roots f grid n rtol = Except.ok rs →
        rs.length = n ∧ List.Sorted (fun a b => a ≤ b) rs) := by
  intro f grid n rtol
  have hlen : (List.insertionSort (fun a b => a ≤ b)
      (dedupRoots rtol ((signChangeBrackets f grid).map
        (fun ab => bisect f 50 ab.1 ab.2)))).length
      = (dedupRoots rtol ((signChangeBrackets f grid).map
        (fun ab => bisect f 50 ab.1 ab.2))).length :=
    (List.perm_insertionSort _ _).length_eq
  refine ⟨?_, ?_, ?_⟩
  · intro h
    unfold find_roots
    rw [if_pos]
    rw [hlen]
    exact h
  · intro h
    unfold find_roots
    rw [if_neg]
    · exact ⟨_, rfl⟩
    · rw [hlen]; omega
  · intro rs hrs
    unfold find_roots at hrs
    by_cases hc : (List.insertionSort (fun a b => a ≤ b)
        (dedupRoots rtol ((signChangeBrackets f grid).map
          (fun ab => bisect f 50 ab.1 ab.2)))).length < n
    · rw [if_pos hc] at hrs
      cases hrs
    · rw [if_neg hc] at hrs
      have hrs' := Except.ok.inj hrs
      constructor
      · rw [← hrs', List.length_take]
        omega
      · rw [← hrs']
        exact List.Pairwise.sublist (List.take_sublist _ _)
          (List.sorted_insertionSort _ _)

/-- One-step unfolding of the bisection polisher. -/
theorem bisect_succ (f : ℚ → ℚ) (n : ℕ) (a b : ℚ) :
    bisect f (n + 1) a b =
      (if f ((a + b) / 2) = 0 then (a + b) / 2
       else if f a * f ((a + b) / 2) ≤ 0 then bisect f n a ((a + b) / 2)
       else bisect f n ((a + b) / 2) b) := rfl

/-- Witness for C4: a concrete run bracketing the single root of x - 1 on the
grid [0, 2]; requesting one root succeeds with exactly one sorted root, and
requesting two roots fails hard with the value error. -/
theorem C4_find_roots_spec_witness :
    find_roots (fun x : ℚ => x - 1) [0, 2] 1 (1 / 10) = Except.ok [1] ∧
    [(1 : ℚ)].length = 1 ∧ List.Sorted (fun a b : ℚ => a ≤ b) [1] ∧
    find_roots (fun x : ℚ => x - 1) [0, 2] 2 (1 / 10)
      = Except.error (Err.valueError "not enough roots detected") := by
  have hb : bisect (fun x : ℚ => x - 1) 50 0 2 = 1 := by
    have h50 : (50 : ℕ) = 49 + 1 := rfl
    rw [h50, bisect_succ]
    norm_num
  have hbr : signChangeBrackets (fun x : ℚ => x - 1) [0, 2] = [(0, 2)] := by
    norm_num [signChangeBrackets, List.zip]
  have hded : dedupRoots (1 / 10 : ℚ) [1] = [1] := by
    norm_num [dedupRoots]
  have hchain : dedupRoots (1 / 10) ((signChangeBrackets (fun x : ℚ => x - 1) [0, 2]).map
      (fun ab => bisect (fun x : ℚ => x - 1) 50 ab.1 ab.2)) = [1] := by
    rw [hbr]
    simp only [List.map_cons, List.map_nil, hb]
    exact hded
  have hrun : find_roots (fun x : ℚ => x - 1) [0, 2] 1 (1 / 10) = Except.ok [1] := by
    simp only [find_roots, hchain]
    norm_num [List.insertionSort, List.orderedInsert]
  have hlt : (dedupRoots (1 / 10) ((signChangeBrackets (fun x : ℚ => x - 1) [0, 2]).map
      (fun ab => bisect (fun x : ℚ => x - 1) 50 ab.1 ab.2))).length < 2 := by
    rw [hchain]
    norm_num
  have h := (C4_find_roots_spec (fun x : ℚ => x - 1) [0, 2] 1 (1 / 10)).2.2 [1] hrun
  exact ⟨hrun, h.1, h.2,
    (C4_find_roots_spec (fun x : ℚ => x - 1) [0, 2] 2 (1 / 10)).1 hlt⟩

section RealHelper

/-- Modelled from the tests: the tolerance below which an imaginary component
counts as negligible for `core.real` (between the accepted 1e-20 and the
rejected 1e-10 of the test suite, matching `real_if_close` with tol = 100
machine epsilons). -/
def realTol : ℚ := 1 / 10 ^ 14

/-- Modelled from the tests: the inputs `core.real` is exercised with — a
non-numeric object, one complex scalar, or a sequence of complex scalars,
each complex number as a pair (re, im). -/
inductive PyVal where
  | none
  | num (z : ℚ × ℚ)
  | seq (zs : List (ℚ × ℚ))

/-- Modelled from the tests (`RealTestCase`): `core.real` — a type error for
non-numeric input, the real part when every imaginary component is
negligible, and a value error as soon as one is not. -/
def pyReal (v : PyVal) : Except Err (ℚ ⊕ List ℚ) :=
  match v with
  | PyVal.none => Except.error (Err.typeError "no numeric data provided")
  | PyVal.num z =>
    if |z.2| < realTol then Except.ok (Sum.inl z.1)
    else Except.error (Err.valueError "imaginary part does not vanish")
  | PyVal.seq zs =>
    if zs.all (fun z => decide (|z.2| < realTol)) then
      Except.ok (Sum.inr (zs.map (fun z => z.1)))
    else Except.error (Err.valueError "imaginary part does not vanish")

end RealHelper

/-- Claim C10: `real` returns the real part whenever every imaginary
component is below the tolerance (an imaginary part of 1e-20 is accepted),
fails with a value error as soon as one imaginary component is 1e-10 or
larger, and fails with a type error on non-numeric input. -/
theorem C10_real_spec :
    (∀ z : ℚ × ℚ, |z.2| < realTol → pyReal (PyVal.num z) = Except.ok (Sum.inl z.1)) ∧
    (∀ z : ℚ × ℚ, realTol ≤ |z.2| →
      pyReal (PyVal.num z) = Except.error (Err.valueError "imaginary part does not vanish")) ∧
    (∀ zs : List (ℚ × ℚ), (∃ z ∈ zs, realTol ≤ |z.2|) →
      pyReal (PyVal.seq zs) = Except.error (Err.valueError "imaginary part does not vanish")) ∧
    pyReal PyVal.none = Except.error (Err.typeError "no numeric data provided") ∧
    pyReal (PyVal.num (1, 0)) = Except.ok (Sum.inl 1) ∧
    pyReal (PyVal.num (1, 1 / 10 ^ 20)) = Except.ok (Sum.inl 1) ∧
    pyReal (PyVal.num (1, 1 / 10 ^ 10))
      = Except.error (Err.valueError "imaginary part does not vanish") ∧
    pyReal (PyVal.num (0, 1))
      = Except.error (Err.valueError "imaginary part does not vanish") ∧
    pyReal (PyVal.seq [(1, 0), (2, 0), (2, 2)])
      = Except.error (Err.valueError "imaginary part does not vanish") := by
  refine ⟨?_, ?_, ?_, rfl, ?_, ?_, ?_, ?_, ?_⟩
  · intro z h
    simp [pyReal, h]
  · intro z h
    simp [pyReal, not_lt.mpr h]
  · intro zs h
    have hall : ¬ (zs.all (fun z => decide (|z.2| < realTol)) = true) := by
      rcases h with ⟨z, hz, hge⟩
      simp only [List.all_eq_true, decide_eq_true_eq]
      intro hcon
      exact absurd (hcon z hz) (not_lt.mpr hge)
    simp [pyReal, hall]
  all_goals norm_num [pyReal, realTol, abs_of_pos]

/-- Witness for C10: the tolerance clauses applied to the accepted input with
imaginary part 1e-20 and to the rejected inputs 1 + 1e-10 i and i. -/
theorem C10_real_spec_witness :
    pyReal (PyVal.num (5, 1 / 10 ^ 20)) = Except.ok (Sum.inl 5) ∧
    pyReal (PyVal.num (5, 1 / 10 ^ 10))
      = Except.error (Err.valueError "imaginary part does not vanish") ∧
    pyReal (PyVal.seq [(1, 0), (2, 1 / 10 ^ 10)])
      = Except.error (Err.valueError "imaginary part does not vanish") := by
  refine ⟨C10_real_spec.1 (5, 1 / 10 ^ 20) (by norm_num [realTol, abs_of_pos]),
    C10_real_spec.2.1 (5, 1 / 10 ^ 10) (by norm_num [realTol, abs_of_pos]),
    C10_real_spec.2.2.1 [(1, 0), (2, 1 / 10 ^ 10)] ?_⟩
  refine ⟨(2, 1 / 10 ^ 10), by simp, by norm_num [realTol, abs_of_pos]⟩

section ScaleLemmas

variable {K : Type _} [LinearOrderedField K]

theorem mulP_smulP_right (d : K) (p q : Coeffs K) :
    mulP p (smulP d q) = smulP d (mulP p q) := by
  induction p with
  | nil => simp [mulP, smulP]
  | cons c cs ih =>
    show addP (smulP c (smulP d q)) (0 :: mulP cs (smulP d q)) = _
    rw [ih, smulP_smulP, mul_comm c d, ← smulP_smulP]
    show _ = smulP d (addP (smulP c q) (0 :: mulP cs q))
    rw [smulP_addP]
    congr 1
    rw [smulP_cons, mul_zero]

theorem scalePieces_one (F : List (Piece K)) : scalePieces 1 F = F := by
  unfold scalePieces
  have h : ∀ p : Piece K, (⟨p.lo, p.hi, smulP 1 p.poly⟩ : Piece K) = p := by
    intro p
    have : smulP (1 : K) p.poly = p.poly := by simp [smulP]
    rw [this]
  simp only [h]
  exact List.map_id F

theorem integOn_scalePieces (c d : K) (F G : List (Piece K)) (iv : Iv K) :
    integOn (scalePieces c F) (scalePieces d G) iv = c * d * integOn F G iv := by
  unfold integOn scalePieces
  rw [List.map_map, ← List.sum_map_mul_left]
  apply congrArg
  apply List.map_congr_left
  intro p _
  show (List.map _ (List.map _ G)).sum = _
  rw [List.map_map, ← List.sum_map_mul_left]
  apply congrArg
  apply List.map_congr_left
  intro q _
  show (if max iv.1 (max p.lo q.lo) < min iv.2 (min p.hi q.hi) then
      integP (mulP (smulP c p.poly) (smulP d q.poly))
        (max iv.1 (max p.lo q.lo)) (min iv.2 (min p.hi q.hi)) else 0)
    = c * d * (if max iv.1 (max p.lo q.lo) < min iv.2 (min p.hi q.hi) then
      integP (mulP p.poly q.poly)
        (max iv.1 (max p.lo q.lo)) (min iv.2 (min p.hi q.hi)) else 0)
  rw [mulP_smulP_left, mulP_smulP_right, smulP_smulP, integP_smulP, mul_ite, mul_zero]

theorem scale_fields (f : PyFunction K) (c : K) :
    (f.scale c).pieces = scalePieces c f.pieces ∧ (f.scale c).domain = f.domain ∧
      (f.scale c).nonzero = f.nonzero := by
  unfold PyFunction.scale
  split_ifs with h
  · subst h
    exact ⟨(scalePieces_one f.pieces).symm, rfl, rfl⟩
  · exact ⟨rfl, rfl, rfl⟩

theorem intersectAll_scale (f g : PyFunction K) (c d : K) :
    intersectAll (f.scale c) (g.scale d) = intersectAll f g := by
  unfold intersectAll
  rw [(scale_fields f c).2.1, (scale_fields f c).2.2, (scale_fields g d).2.1,
    (scale_fields g d).2.2]

/-- Scaling both arguments of the inner product by constants scales the inner
product by the product of the constants. -/
theorem dot_product_l2_scale (f g : PyFunction K) (c d : K) :
    dot_product_l2 (f.scale c) (g.scale d) = c * d * dot_product_l2 f g := by
  unfold dot_product_l2
  rw [intersectAll_scale, (scale_fields f c).1, (scale_fields g d).1,
    ← List.sum_map_mul_left]
  apply congrArg
  apply List.map_congr_left
  intro iv _
  exact integOn_scalePieces c d f.pieces g.pieces iv

end ScaleLemmas

section NormalizeBase

variable {K : Type _} [LinearOrderedField K]

instance : Inhabited (PyFunction K) :=
  ⟨{ pieces := [], domain := [], nonzero := [], derivative_handles := [],
     vectorial := true }⟩

/-- Some product in the list vanishes (orthogonal pair of fractions). -/
def hasVanishing (l : List K) : Prop := ∃ p ∈ l, p = 0

instance (l : List K) : Decidable (hasVanishing l) :=
  decidable_of_iff (l.any (fun p => decide (p = 0)) = true) (by simp [hasVanishing])

/-- Some product in the list is negative (the required scale factor would not
be a finite real). -/
def hasNegative (l : List K) : Prop := ∃ p ∈ l, p < 0

instance (l : List K) : Decidable (hasNegative l) :=
  decidable_of_iff (l.any (fun p => decide (p < 0)) = true) (by simp [hasNegative])

/-- Modelled from the spec (section 4.5): `core.normalize_base` — computes the
fraction-wise inner products of `base_a` against `base_b` (against itself when
`base_b` is absent), fails with a value error on an orthogonal pair (zero
product) or when the scale factor would be non-finite (negative product), and
otherwise rescales all fractions of both bases by the reciprocal square roots
of the products. -/
def normalize_base (sq : K → K) (A : List (PyFunction K))
    (B : Option (List (PyFunction K))) :
    Except Err (List (PyFunction K) × Option (List (PyFunction K))) :=
  let Bp := B.getD A
  let prods := (A.zip Bp).map (fun fg => dot_product_l2 fg.1 fg.2)
  if hasVanishing prods then
    Except.error (Err.valueError "given base fractions are orthogonal")
  else if hasNegative prods then
    Except.error (Err.valueError "imaginary scale required")
  else
    Except.ok ((A.zip prods).map (fun fp => fp.1.scale (sq fp.2)⁻¹),
      B.map (fun Bb => (Bb.zip prods).map (fun fp => fp.1.scale (sq fp.2)⁻¹)))

end NormalizeBase

/-- Claim C9: `normalize_base` rescales a base against itself so that every
self inner product becomes 1, rescales two bases jointly so that every cross
inner product becomes 1, and fails with a value error — returning no base —
when a product vanishes (orthogonal fractions) or when the required scale
factor would be non-finite (negative product). -/
theorem C9_normalize_base_spec :
    ∀ (A : List (PyFunction ℝ)) (B : Option (List (PyFunction ℝ))),
      (hasVanishing ((A.zip (B.getD A)).map (fun fg => dot_product_l2 fg.1 fg.2)) →
        normalize_base Real.sqrt A B
          = Except.error (Err.valueError "given base fractions are orthogonal")) ∧
      (¬ hasVanishing ((A.zip (B.getD A)).map (fun fg => dot_product_l2 fg.1 fg.2)) →
        hasNegative ((A.zip (B.getD A)).map (fun fg => dot_product_l2 fg.1 fg.2)) →
        normalize_base Real.sqrt A B
          = Except.error (Err.valueError "imaginary scale required")) ∧
      (∀ Ap oB, normalize_base Real.sqrt A B = Except.ok (Ap, oB) →
        oB.isSome = B.isSome ∧
        ∀ i, i < A.length → i < (B.getD A).length →
          dot_product_l2 (Ap.getD i default) ((oB.getD Ap).getD i default) = 1) := by
  intro A B
  refine ⟨?_, ?_, ?_⟩
  · intro h
    unfold normalize_base
    rw [if_pos h]
  · intro h1 h2
    unfold normalize_base
    rw [if_neg h1, if_pos h2]
  · intro Ap oB hok
    unfold normalize_base at hok
    by_cases h1 : hasVanishing ((A.zip (B.getD A)).map (fun fg => dot_product_l2 fg.1 fg.2))
    · rw [if_pos h1] at hok; cases hok
    rw [if_neg h1] at hok
    by_cases h2 : hasNegative ((A.zip (B.getD A)).map (fun fg => dot_product_l2 fg.1 fg.2))
    · rw [if_pos h2] at hok; cases hok
    rw [if_neg h2] at hok
    have hpair := Except.ok.inj hok
    have hAp : Ap = (A.zip ((A.zip (B.getD A)).map
        (fun fg => dot_product_l2 fg.1 fg.2))).map
        (fun fp => fp.1.scale (Real.sqrt fp.2)⁻¹) := (congrArg Prod.fst hpair).symm
    have hoB : oB = B.map (fun Bb => (Bb.zip ((A.zip (B.getD A)).map
        (fun fg => dot_product_l2 fg.1 fg.2))).map
        (fun fp => fp.1.scale (Real.sqrt fp.2)⁻¹)) := (congrArg Prod.snd hpair).symm
    constructor
    · rw [hoB]
      cases B <;> rfl
    intro i hiA hiB
    -- the i-th product and its positivity
    set prods := (A.zip (B.getD A)).map (fun fg => dot_product_l2 fg.1 fg.2) with hprods
    have hlenz : (A.zip (B.getD A)).length = min A.length (B.getD A).length := by
      simpa using List.length_zip A (B.getD A)
    have hplen : prods.length = min A.length (B.getD A).length := by
      rw [hprods, List.length_map, hlenz]
    have hiprod : i < prods.length := by omega
    have hizip : i < (A.zip (B.getD A)).length := by rw [hlenz]; omega
    have hpmem : prods.getD i 0 ∈ prods := by
      rw [List.getD_eq_getElem prods 0 hiprod]
      exact List.getElem_mem _
    have hpne : prods.getD i 0 ≠ 0 := by
      intro hc
      exact h1 ⟨prods.getD i 0, hpmem, hc⟩
    have hpnn : ¬ prods.getD i 0 < 0 := by
      intro hc
      exact h2 ⟨prods.getD i 0, hpmem, hc⟩
    have hppos : 0 < prods.getD i 0 := lt_of_le_of_ne (not_lt.mp hpnn) (Ne.symm hpne)
    have hpval : prods.getD i 0 = dot_product_l2 A[i] (B.getD A)[i] := by
      rw [hprods]
      rw [List.getD_eq_getElem _ 0 (by rw [List.length_map]; exact hizip)]
      rw [List.getElem_map, List.getElem_zip]
    -- the i-th normalized fractions
    have hApi : Ap.getD i default = A[i].scale (Real.sqrt (prods.getD i 0))⁻¹ := by
      rw [hAp]
      rw [List.getD_eq_getElem _ default
        (by simp only [List.length_map, List.length_zip]; omega)]
      simp only [List.getElem_map, List.getElem_zip]
      rw [List.getD_eq_getElem prods 0 hiprod]
    have hBpi : (oB.getD Ap).getD i default
        = ((B.getD A)[i]).scale (Real.sqrt (prods.getD i 0))⁻¹ := by
      rw [hoB]
      cases B with
      | none =>
        show Ap.getD i default = _
        rw [hApi]
        rfl
      | some Bb =>
        show ((Bb.zip prods).map
            (fun fp => fp.1.scale (Real.sqrt fp.2)⁻¹)).getD i default = _
        have hiBb : i < Bb.length := by simpa using hiB
        rw [List.getD_eq_getElem _ default
          (by simp only [List.length_map, List.length_zip]; omega)]
        simp only [List.getElem_map, List.getElem_zip]
        rw [List.getD_eq_getElem prods 0 hiprod]
        rfl
    rw [hApi, hBpi, dot_product_l2_scale, ← hpval, ← mul_inv,
      Real.mul_self_sqrt hppos.le, inv_mul_cancel₀ hpne]

/-- Witness for C9: the self-normalization of the already normalized constant
function 1 on (0, 1), whose self inner product is exactly 1. -/
theorem C9_normalize_base_spec_witness :
    normalize_base Real.sqrt [pyConst (1 : ℝ) 0 1] none
      = Except.ok ([pyConst (1 : ℝ) 0 1], none) ∧
    dot_product_l2 (([pyConst (1 : ℝ) 0 1].getD 0 default))
      ((Option.getD (none : Option (List (PyFunction ℝ))) [pyConst (1 : ℝ) 0 1]).getD 0 default)
      = 1 := by
  have hdot : dot_product_l2 (pyConst (1 : ℝ) 0 1) (pyConst (1 : ℝ) 0 1) = 1 := by
    norm_num [dot_product_l2, intersectAll, pyConst, pairInter, ivInter, integOn,
      integP, mulP, smulP, addP, max_def, min_def, Finset.sum_range_succ,
      List.filterMap_cons, List.flatMap_cons, List.map_cons, List.sum_cons,
      List.sum_nil, List.filterMap_nil, List.flatMap_nil, List.append_nil, List.nil_append,
      List.cons_append, List.map_nil]
  have hmap : (([pyConst (1 : ℝ) 0 1].zip
      ((none : Option (List (PyFunction ℝ))).getD [pyConst (1 : ℝ) 0 1])).map
      (fun fg => dot_product_l2 fg.1 fg.2)) = [1] := by
    simp [hdot]
  have h1 : ¬ hasVanishing [(1 : ℝ)] := by simp [hasVanishing]
  have h2 : ¬ hasNegative [(1 : ℝ)] := by simp [hasNegative]
  have hok : normalize_base Real.sqrt [pyConst (1 : ℝ) 0 1] none
      = Except.ok ([pyConst (1 : ℝ) 0 1], none) := by
    simp only [normalize_base, hmap]
    rw [if_neg h1, if_neg h2]
    simp [PyFunction.scale, Real.sqrt_one]
  refine ⟨hok, ?_⟩
  have h := (C9_normalize_base_spec [pyConst (1 : ℝ) 0 1] none).2.2
    [pyConst (1 : ℝ) 0 1] none hok
  exact h.2 0 (by simp) (by simp)

section Projection

variable {K : Type _} [LinearOrderedField K]

/-- Node `j` of a uniform grid with start `s` and spacing `h`. -/
def nodeX (s h : K) (j : ℕ) : K := s + j * h

/-- Modelled from the spec (section 3 lifecycle): `core.cure_interval` —
discretize `(s, e)` into `n` equidistant nodes and the first-order Lagrange
nodal basis over them; the two boundary fractions are half hats, built by
`LagrangeFirstOrder` with coinciding start/top (resp. top/end). -/
def cure_interval (s e : K) (n : ℕ) : List K × List (PyFunction K) :=
  let h := (e - s) / ((n : K) - 1)
  (List.ofFn (fun i : Fin n => nodeX s h i),
    List.ofFn (fun i : Fin n =>
      LagrangeFirstOrder (nodeX s h (i - 1)) (nodeX s h i)
        (nodeX s h (min (i + 1) (n - 1)))))

/-- The hat of index `i` produced by curing, named for the proofs. -/
def cureHat (s h : K) (n i : ℕ) : PyFunction K :=
  LagrangeFirstOrder (nodeX s h (i - 1)) (nodeX s h i) (nodeX s h (min (i + 1) (n - 1)))

/-- The linear function `a * x + c` on the single interval `(lo, hi)`. -/
def linFunc (a c lo hi : K) : PyFunction K :=
  { pieces := [⟨lo, hi, [c, a]⟩],
    domain := [(lo, hi)],
    nonzero := [(lo, hi)],
    derivative_handles := [[⟨lo, hi, [a]⟩]],
    vectorial := true }

/-- Modelled from the spec (section 4.5): the Gram matrix of a base against
itself, as built by `calculate_scalar_product_matrix` inside
`project_on_base`. -/
def gramMatrix (B : List (PyFunction K)) : Matrix (Fin B.length) (Fin B.length) K :=
  Matrix.of fun i j => dot_product_l2 (B.get i) (B.get j)

/-- Modelled from the spec (section 4.5): the mathematical core of
`core.project_on_base` — solve the normal equations
`Gram(base, base) w = rhs`, `rhs i = dot_product_l2 (function, base[i])`,
here through Cramer's rule (the unique solution when the Gram determinant is
nonzero, as `np.linalg.solve` computes). -/
def projectOnFuncs (f : PyFunction K) (B : List (PyFunction K)) : List K :=
  List.ofFn (fun j : Fin B.length =>
    Matrix.cramer (gramMatrix B) (fun i => dot_product_l2 f (B.get i)) j /
      (gramMatrix B).det)

/-- Modelled from the spec (section 9): the dynamic fraction-kind dispatch at
the `project_on_base` boundary — a Function-kind object or anything else. -/
inductive CoreObj (K : Type _) where
  | func (f : PyFunction K)
  | raw

/-- Modelled from the spec (section 4.5): `core.project_on_base` — fails with
a type error unless the function is Function-kind and all base fractions are
Function-kind. -/
def project_on_base (x : CoreObj K) (B : List (CoreObj K)) : Except Err (List K) :=
  match x with
  | CoreObj.raw => Except.error (Err.typeError "input must be a Function")
  | CoreObj.func f =>
    if B.all (fun b => match b with | CoreObj.func _ => true | CoreObj.raw => false) then
      Except.ok (projectOnFuncs f
        (B.filterMap (fun b => match b with
          | CoreObj.func g => some g
          | CoreObj.raw => none)))
    else Except.error (Err.typeError "base must contain Functions")

/-- Modelled from the spec (section 4.5): `core.back_project_from_base` — the
callable `z ↦ Σ w i * base[i] z`. -/
def back_project_from_base (w : List K) (B : List (PyFunction K)) : K → K :=
  fun z => ((w.zip B).map (fun wb => wb.1 * pwEval wb.2.pieces z)).sum

theorem nodeX_strictMono (s h : K) (hh : 0 < h) : StrictMono (nodeX s h) := by
  intro a b hab
  unfold nodeX
  have : (a : K) < (b : K) := by exact_mod_cast hab
  nlinarith

theorem nodeX_mono (s h : K) (hh : 0 < h) : Monotone (nodeX s h) :=
  (nodeX_strictMono s h hh).monotone

theorem nodeX_succ_sub (s h : K) (k : ℕ) : nodeX s h (k + 1) - nodeX s h k = h := by
  unfold nodeX
  push_cast
  ring

theorem pairInter_single (a b : Iv K) :
    pairInter [a] [b] = if max a.1 b.1 < min a.2 b.2
      then [(max a.1 b.1, min a.2 b.2)] else [] := by
  unfold pairInter
  rw [List.flatMap_cons, List.flatMap_nil, List.append_nil, List.filterMap_cons,
    List.filterMap_nil]
  split_ifs with h
  · have hiv : ivInter a b = some (max a.1 b.1, min a.2 b.2) := by
      show (if max a.1 b.1 < min a.2 b.2 then some (max a.1 b.1, min a.2 b.2) else none) = _
      rw [if_pos h]
    rw [hiv]
  · have hiv : ivInter a b = none := by
      show (if max a.1 b.1 < min a.2 b.2 then some (max a.1 b.1, min a.2 b.2) else none) = _
      rw [if_neg h]
    rw [hiv]

/-- The integration region of the inner product of two functions supported on
single intervals. -/
theorem intersectAll_single (f g : PyFunction K) (A B C D : K)
    (hf1 : f.domain = [(A, B)]) (hf2 : f.nonzero = [(A, B)])
    (hg1 : g.domain = [(C, D)]) (hg2 : g.nonzero = [(C, D)]) :
    intersectAll f g = if max A C < min B D then [(max A C, min B D)] else [] := by
  unfold intersectAll
  rw [hf1, hf2, hg1, hg2, pairInter_single]
  split_ifs with h
  · have hr : max (max A C) (max A C) < min (min B D) (min B D) := by simpa using h
    rw [pairInter_single, if_pos hr]
    simp
  · rfl

/-- The inner product of two functions supported on single intervals. -/
theorem dot_single (f g : PyFunction K) (A B C D : K)
    (hf1 : f.domain = [(A, B)]) (hf2 : f.nonzero = [(A, B)])
    (hg1 : g.domain = [(C, D)]) (hg2 : g.nonzero = [(C, D)]) :
    dot_product_l2 f g = if max A C < min B D
      then integOn f.pieces g.pieces (max A C, min B D) else 0 := by
  unfold dot_product_l2
  rw [intersectAll_single f g A B C D hf1 hf2 hg1 hg2]
  split_ifs with h <;> simp

end Projection

section ProjectionGeometry

variable {K : Type _} [LinearOrderedField K]

/-- The contribution of one pair of pieces to `integOn`. -/
def TT (iv : Iv K) (p q : Piece K) : K :=
  if max iv.1 (max p.lo q.lo) < min iv.2 (min p.hi q.hi) then
    integP (mulP p.poly q.poly) (max iv.1 (max p.lo q.lo)) (min iv.2 (min p.hi q.hi))
  else 0

theorem integOn_eq_TT (F G : List (Piece K)) (iv : Iv K) :
    integOn F G iv = (F.map (fun p => (G.map (fun q => TT iv p q)).sum)).sum := rfl

/-- Geometry of piece-pair contributions over a uniform node grid: the node
indices decide everything. -/
theorem TT_nodes (s h : K) (hh : 0 < h) (lo hi u1 u2 v1 v2 : ℕ) (p q : Coeffs K) :
    TT (nodeX s h lo, nodeX s h hi)
        ⟨nodeX s h u1, nodeX s h u2, p⟩ ⟨nodeX s h v1, nodeX s h v2, q⟩
      = if max lo (max u1 v1) < min hi (min u2 v2) then
          integP (mulP p q) (nodeX s h (max lo (max u1 v1)))
            (nodeX s h (min hi (min u2 v2)))
        else 0 := by
  unfold TT
  dsimp only
  have hmax : ∀ a b : ℕ, max (nodeX s h a) (nodeX s h b) = nodeX s h (max a b) :=
    fun a b => ((nodeX_mono s h hh).map_max).symm
  have hmin : ∀ a b : ℕ, min (nodeX s h a) (nodeX s h b) = nodeX s h (min a b) :=
    fun a b => ((nodeX_mono s h hh).map_min).symm
  rw [hmax u1 v1, hmax lo (max u1 v1), hmin u2 v2, hmin hi (min u2 v2)]
  by_cases hc : max lo (max u1 v1) < min hi (min u2 v2)
  · rw [if_pos ((nodeX_strictMono s h hh).lt_iff_lt.mpr hc), if_pos hc]
  · rw [if_neg (fun hcon => hc ((nodeX_strictMono s h hh).lt_iff_lt.mp hcon)),
      if_neg hc]

/-- Rising edge polynomial of the hat at node `k + 1`. -/
def risePoly (s h : K) (k : ℕ) : Coeffs K := [-nodeX s h k / h, 1 / h]

/-- Falling edge polynomial of the hat at node `k`. -/
def fallPoly (s h : K) (k : ℕ) : Coeffs K := [nodeX s h (k + 1) / h, -1 / h]

/-- The rising piece on the unit interval `k`. -/
def risePc (s h : K) (k : ℕ) : Piece K :=
  ⟨nodeX s h k, nodeX s h (k + 1), risePoly s h k⟩

/-- The falling piece on the unit interval `k`. -/
def fallPc (s h : K) (k : ℕ) : Piece K :=
  ⟨nodeX s h k, nodeX s h (k + 1), fallPoly s h k⟩

theorem cureHat_domain (s h : K) (n i : ℕ) :
    (cureHat s h n i).domain
      = [(nodeX s h (i - 1), nodeX s h (min (i + 1) (n - 1)))] := rfl

theorem cureHat_nonzero (s h : K) (n i : ℕ) :
    (cureHat s h n i).nonzero
      = [(nodeX s h (i - 1), nodeX s h (min (i + 1) (n - 1)))] := rfl

theorem cureHat_pieces_left (s h : K) (n : ℕ) (hh : 0 < h) (hn : 2 ≤ n) :
    (cureHat s h n 0).pieces = [fallPc s h 0] := by
  unfold cureHat LagrangeFirstOrder
  dsimp only
  have h1 : ¬ nodeX s h (0 - 1) < nodeX s h 0 := by
    show ¬ nodeX s h 0 < nodeX s h 0
    exact lt_irrefl _
  have hmn : min (0 + 1) (n - 1) = 1 := by omega
  rw [hmn] at *
  have h2 : nodeX s h 0 < nodeX s h 1 := nodeX_strictMono s h hh (by omega)
  rw [if_neg h1, if_pos h2]
  have hsub : nodeX s h 1 - nodeX s h 0 = h := nodeX_succ_sub s h 0
  rw [hsub]
  rfl

theorem cureHat_pieces_right (s h : K) (n : ℕ) (hh : 0 < h) (hn : 2 ≤ n) :
    (cureHat s h n (n - 1)).pieces = [risePc s h (n - 2)] := by
  unfold cureHat LagrangeFirstOrder
  dsimp only
  have he1 : n - 1 - 1 = n - 2 := by omega
  have he2 : min (n - 1 + 1) (n - 1) = n - 1 := by omega
  have he3 : n - 1 = (n - 2) + 1 := by omega
  rw [he1, he2]
  have h1 : nodeX s h (n - 2) < nodeX s h (n - 1) :=
    nodeX_strictMono s h hh (by omega)
  have h2 : ¬ nodeX s h (n - 1) < nodeX s h (n - 1) := lt_irrefl _
  rw [if_pos h1, if_neg h2]
  have hsub : nodeX s h (n - 1) - nodeX s h (n - 2) = h := by
    rw [he3]
    exact nodeX_succ_sub s h (n - 2)
  rw [hsub, List.append_nil]
  rw [he3]
  rfl

theorem cureHat_pieces_mid (s h : K) (n m : ℕ) (hh : 0 < h) (hm : m + 2 ≤ n - 1) :
    (cureHat s h n (m + 1)).pieces = [risePc s h m, fallPc s h (m + 1)] := by
  unfold cureHat LagrangeFirstOrder
  dsimp only
  have he1 : m + 1 - 1 = m := by omega
  have he2 : min (m + 1 + 1) (n - 1) = m + 2 := by omega
  rw [he1, he2]
  have h1 : nodeX s h m < nodeX s h (m + 1) := nodeX_strictMono s h hh (by omega)
  have h2 : nodeX s h (m + 1) < nodeX s h (m + 2) := nodeX_strictMono s h hh (by omega)
  rw [if_pos h1, if_pos h2]
  rw [nodeX_succ_sub s h m, show nodeX s h (m + 2) - nodeX s h (m + 1) = h from
    nodeX_succ_sub s h (m + 1)]
  rfl

end ProjectionGeometry

section GramEntries

variable {K : Type _} [LinearOrderedField K]

theorem dot_cureHat (s h : K) (hh : 0 < h) (n i j : ℕ) :
    dot_product_l2 (cureHat s h n i) (cureHat s h n j)
      = if max (i - 1) (j - 1) < min (min (i + 1) (n - 1)) (min (j + 1) (n - 1)) then
          integOn (cureHat s h n i).pieces (cureHat s h n j).pieces
            (nodeX s h (max (i - 1) (j - 1)),
              nodeX s h (min (min (i + 1) (n - 1)) (min (j + 1) (n - 1))))
        else 0 := by
  rw [dot_single (cureHat s h n i) (cureHat s h n j) _ _ _ _
    (cureHat_domain s h n i) (cureHat_nonzero s h n i)
    (cureHat_domain s h n j) (cureHat_nonzero s h n j)]
  have hmax : max (nodeX s h (i - 1)) (nodeX s h (j - 1))
      = nodeX s h (max (i - 1) (j - 1)) := ((nodeX_mono s h hh).map_max).symm
  have hmin : min (nodeX s h (min (i + 1) (n - 1))) (nodeX s h (min (j + 1) (n - 1)))
      = nodeX s h (min (min (i + 1) (n - 1)) (min (j + 1) (n - 1))) :=
    ((nodeX_mono s h hh).map_min).symm
  rw [hmax, hmin]
  by_cases hc : max (i - 1) (j - 1) < min (min (i + 1) (n - 1)) (min (j + 1) (n - 1))
  · rw [if_pos ((nodeX_strictMono s h hh).lt_iff_lt.mpr hc), if_pos hc]
  · rw [if_neg (fun hcon => hc ((nodeX_strictMono s h hh).lt_iff_lt.mp hcon)),
      if_neg hc]

theorem integ_rr (s h : K) (hh : 0 < h) (k : ℕ) :
    integP (mulP (risePoly s h k) (risePoly s h k))
      (nodeX s h k) (nodeX s h (k + 1)) = h / 3 := by
  have hne : h ≠ 0 := ne_of_gt hh
  simp only [risePoly, mulP, smulP, addP, List.map, integP, List.length,
    Finset.sum_range_succ, Finset.sum_range_zero, List.getD, nodeX, List.get?]
  push_cast
  field_simp
  ring

theorem integ_ff (s h : K) (hh : 0 < h) (k : ℕ) :
    integP (mulP (fallPoly s h k) (fallPoly s h k))
      (nodeX s h k) (nodeX s h (k + 1)) = h / 3 := by
  have hne : h ≠ 0 := ne_of_gt hh
  simp only [fallPoly, mulP, smulP, addP, List.map, integP, List.length,
    Finset.sum_range_succ, Finset.sum_range_zero, List.getD, nodeX, List.get?]
  push_cast
  field_simp
  ring

theorem integ_rf (s h : K) (hh : 0 < h) (k : ℕ) :
    integP (mulP (risePoly s h k) (fallPoly s h k))
      (nodeX s h k) (nodeX s h (k + 1)) = h / 6 := by
  have hne : h ≠ 0 := ne_of_gt hh
  simp only [risePoly, fallPoly, mulP, smulP, addP, List.map, integP, List.length,
    Finset.sum_range_succ, Finset.sum_range_zero, List.getD, nodeX, List.get?]
  push_cast
  field_simp
  ring

theorem integ_fr (s h : K) (hh : 0 < h) (k : ℕ) :
    integP (mulP (fallPoly s h k) (risePoly s h k))
      (nodeX s h k) (nodeX s h (k + 1)) = h / 6 := by
  have hne : h ≠ 0 := ne_of_gt hh
  simp only [risePoly, fallPoly, mulP, smulP, addP, List.map, integP, List.length,
    Finset.sum_range_succ, Finset.sum_range_zero, List.getD, nodeX, List.get?]
  push_cast
  field_simp
  ring

theorem integ_lin_rise (s h : K) (hh : 0 < h) (a c : K) (k : ℕ) :
    integP (mulP [c, a] (risePoly s h k)) (nodeX s h k) (nodeX s h (k + 1))
      = h * ((a * nodeX s h k + c) + 2 * (a * nodeX s h (k + 1) + c)) / 6 := by
  have hne : h ≠ 0 := ne_of_gt hh
  simp only [risePoly, mulP, smulP, addP, List.map, integP, List.length,
    Finset.sum_range_succ, Finset.sum_range_zero, List.getD, nodeX, List.get?]
  push_cast
  field_simp
  ring

theorem integ_lin_fall (s h : K) (hh : 0 < h) (a c : K) (k : ℕ) :
    integP (mulP [c, a] (fallPoly s h k)) (nodeX s h k) (nodeX s h (k + 1))
      = h * (2 * (a * nodeX s h k + c) + (a * nodeX s h (k + 1) + c)) / 6 := by
  have hne : h ≠ 0 := ne_of_gt hh
  simp only [fallPoly, mulP, smulP, addP, List.map, integP, List.length,
    Finset.sum_range_succ, Finset.sum_range_zero, List.getD, nodeX, List.get?]
  push_cast
  field_simp
  ring

end GramEntries

section GramValues

variable {K : Type _} [LinearOrderedField K]

/-- Uniform description of the pieces of a cured hat: a rising edge unless it
is the left boundary hat, a falling edge unless it is the right boundary
hat. -/
theorem cureHat_pieces (s h : K) (n i : ℕ) (hh : 0 < h) (hn : 2 ≤ n)
    (hi : i ≤ n - 1) :
    (cureHat s h n i).pieces
      = (if 0 < i then [risePc s h (i - 1)] else [])
        ++ (if i < n - 1 then [fallPc s h i] else []) := by
  by_cases h0 : i = 0
  · subst h0
    rw [cureHat_pieces_left s h n hh hn, if_neg (by omega), if_pos (by omega)]
    rfl
  · by_cases hlast : i = n - 1
    · subst hlast
      rw [cureHat_pieces_right s h n hh hn, if_pos (by omega), if_neg (by omega)]
      rw [List.append_nil]
      have : n - 1 - 1 = n - 2 := by omega
      rw [this]
    · obtain ⟨m, rfl⟩ : ∃ m, i = m + 1 := ⟨i - 1, by omega⟩
      rw [cureHat_pieces_mid s h n m hh (by omega), if_pos (by omega),
        if_pos (by omega)]
      rfl

theorem TTsum_if_pieces (c1 c2 d1 d2 : Prop) [Decidable c1] [Decidable c2]
    [Decidable d1] [Decidable d2] (p1 p2 q1 q2 : Piece K) (iv : Iv K) :
    integOn ((if c1 then [p1] else []) ++ (if c2 then [p2] else []))
        ((if d1 then [q1] else []) ++ (if d2 then [q2] else [])) iv
      = (if c1 ∧ d1 then TT iv p1 q1 else 0) + (if c1 ∧ d2 then TT iv p1 q2 else 0)
        + (if c2 ∧ d1 then TT iv p2 q1 else 0)
        + (if c2 ∧ d2 then TT iv p2 q2 else 0) := by
  rw [integOn_eq_TT]
  by_cases h1 : c1 <;> by_cases h2 : c2 <;> by_cases h3 : d1 <;> by_cases h4 : d2 <;>
    simp [h1, h2, h3, h4] <;> ring

/-- Geometry of the contribution of two unit-interval pieces: only equal unit
intervals inside the integration window contribute. -/
theorem TT_unit (s h : K) (hh : 0 < h) (lo hi u v : ℕ) (p q : Coeffs K) :
    TT (nodeX s h lo, nodeX s h hi)
        ⟨nodeX s h u, nodeX s h (u + 1), p⟩ ⟨nodeX s h v, nodeX s h (v + 1), q⟩
      = if u = v ∧ lo ≤ u ∧ u + 1 ≤ hi then
          integP (mulP p q) (nodeX s h u) (nodeX s h (u + 1))
        else 0 := by
  rw [TT_nodes s h hh lo hi u (u + 1) v (v + 1) p q]
  by_cases hc : u = v ∧ lo ≤ u ∧ u + 1 ≤ hi
  · obtain ⟨rfl, hc2, hc3⟩ := hc
    rw [if_pos (by omega), if_pos ⟨rfl, hc2, hc3⟩,
      show max lo (max u u) = u from by omega,
      show min hi (min (u + 1) (u + 1)) = u + 1 from by omega]
  · rw [if_neg (by omega), if_neg hc]

/-- The closed-form Gram entries of the cured first-order Lagrange base. -/
def gVal (h : K) (n i j : ℕ) : K :=
  if i = j then
    (if 0 < i then h / 3 else 0) + (if i < n - 1 then h / 3 else 0)
  else if i + 1 = j ∨ j + 1 = i then h / 6 else 0

set_option maxHeartbeats 4000000 in
/-- The inner product of two cured hats has the classical tridiagonal closed
form: h/3 at boundary diagonal, 2h/3 at interior diagonal, h/6 on the two
side diagonals, 0 beyond. -/
theorem dot_cureHat_val (s h : K) (hh : 0 < h) (n i j : ℕ) (hn : 2 ≤ n)
    (hi : i ≤ n - 1) (hj : j ≤ n - 1) :
    dot_product_l2 (cureHat s h n i) (cureHat s h n j) = gVal h n i j := by
  unfold gVal
  by_cases hij : i = j
  · subst hij
    rw [if_pos rfl, dot_cureHat s h hh n i i, if_pos (by omega),
      cureHat_pieces s h n i hh hn hi, TTsum_if_pieces]
    unfold risePc fallPc
    simp only [TT_unit s h hh]
    split_ifs <;> first
      | (exfalso; simp only [true_and, and_true] at *; omega)
      | (simp only [integ_rr s h hh, integ_ff s h hh, integ_rf s h hh,
          integ_fr s h hh]; ring)
  · rw [if_neg hij]
    by_cases hadj : i + 1 = j ∨ j + 1 = i
    · rw [if_pos hadj]
      rcases hadj with hadj | hadj
      · subst hadj
        rw [dot_cureHat s h hh n i (i + 1), if_pos (by omega),
          cureHat_pieces s h n i hh hn hi, cureHat_pieces s h n (i + 1) hh hn hj,
          TTsum_if_pieces]
        unfold risePc fallPc
        simp only [Nat.add_sub_cancel]
        simp only [TT_unit s h hh]
        split_ifs <;> first
          | (exfalso; simp only [true_and, and_true] at *; omega)
          | (simp only [Nat.add_sub_cancel, integ_rr s h hh, integ_ff s h hh,
              integ_rf s h hh, integ_fr s h hh]; ring)
      · subst hadj
        rw [dot_cureHat s h hh n (j + 1) j, if_pos (by omega),
          cureHat_pieces s h n (j + 1) hh hn hi, cureHat_pieces s h n j hh hn hj,
          TTsum_if_pieces]
        unfold risePc fallPc
        simp only [Nat.add_sub_cancel]
        simp only [TT_unit s h hh]
        split_ifs <;> first
          | (exfalso; simp only [true_and, and_true] at *; omega)
          | (simp only [Nat.add_sub_cancel, integ_rr s h hh, integ_ff s h hh,
              integ_rf s h hh, integ_fr s h hh]; ring)
    · rw [if_neg hadj, dot_cureHat s h hh n i j, if_neg (by omega)]

end GramValues

section RhsValues

variable {K : Type _} [LinearOrderedField K]

theorem TTsum_single_if (c1 c2 : Prop) [Decidable c1] [Decidable c2]
    (pbig q1 q2 : Piece K) (iv : Iv K) :
    integOn [pbig] ((if c1 then [q1] else []) ++ (if c2 then [q2] else [])) iv
      = (if c1 then TT iv pbig q1 else 0) + (if c2 then TT iv pbig q2 else 0) := by
  rw [integOn_eq_TT]
  by_cases h1 : c1 <;> by_cases h2 : c2 <;> simp [h1, h2]

set_option maxHeartbeats 1000000 in
/-- The inner product of the linear function with a cured hat: the standard
load-vector entries of first-order finite elements. -/
theorem dot_lin_cureHat_val (s h a c : K) (hh : 0 < h) (n i : ℕ) (hn : 2 ≤ n)
    (hi : i ≤ n - 1) :
    dot_product_l2 (linFunc a c (nodeX s h 0) (nodeX s h (n - 1))) (cureHat s h n i)
      = (if 0 < i then
          h * ((a * nodeX s h (i - 1) + c) + 2 * (a * nodeX s h i + c)) / 6 else 0)
        + (if i < n - 1 then
          h * (2 * (a * nodeX s h i + c) + (a * nodeX s h (i + 1) + c)) / 6 else 0) := by
  rw [dot_single (linFunc a c (nodeX s h 0) (nodeX s h (n - 1))) (cureHat s h n i)
    _ _ _ _ rfl rfl (cureHat_domain s h n i) (cureHat_nonzero s h n i)]
  have e1 : max (nodeX s h 0) (nodeX s h (i - 1)) = nodeX s h (i - 1) := by
    rw [← (nodeX_mono s h hh).map_max, show max 0 (i - 1) = i - 1 from by omega]
  have e2 : min (nodeX s h (n - 1)) (nodeX s h (min (i + 1) (n - 1)))
      = nodeX s h (min (i + 1) (n - 1)) := by
    rw [← (nodeX_mono s h hh).map_min,
      show min (n - 1) (min (i + 1) (n - 1)) = min (i + 1) (n - 1) from by omega]
  rw [e1, e2, if_pos ((nodeX_strictMono s h hh).lt_iff_lt.mpr
    (by omega : i - 1 < min (i + 1) (n - 1)))]
  rw [cureHat_pieces s h n i hh hn hi]
  show integOn [⟨nodeX s h 0, nodeX s h (n - 1), [c, a]⟩] _ _ = _
  rw [TTsum_single_if]
  unfold risePc fallPc
  by_cases h0 : 0 < i <;> by_cases h1 : i < n - 1
  · simp only [h0, h1, if_true]
    rw [TT_nodes s h hh, TT_nodes s h hh,
      if_pos (show max (i - 1) (max 0 (i - 1))
        < min (min (i + 1) (n - 1)) (min (n - 1) (i - 1 + 1)) from by omega),
      if_pos (show max (i - 1) (max 0 i)
        < min (min (i + 1) (n - 1)) (min (n - 1) (i + 1)) from by omega),
      show max (i - 1) (max 0 (i - 1)) = i - 1 from by omega,
      show min (min (i + 1) (n - 1)) (min (n - 1) (i - 1 + 1)) = i - 1 + 1 from by omega,
      show max (i - 1) (max 0 i) = i from by omega,
      show min (min (i + 1) (n - 1)) (min (n - 1) (i + 1)) = i + 1 from by omega,
      integ_lin_rise s h hh a c (i - 1), integ_lin_fall s h hh a c i,
      show i - 1 + 1 = i from by omega]
  · simp only [h0, h1, if_true, if_false]
    rw [TT_nodes s h hh,
      if_pos (show max (i - 1) (max 0 (i - 1))
        < min (min (i + 1) (n - 1)) (min (n - 1) (i - 1 + 1)) from by omega),
      show max (i - 1) (max 0 (i - 1)) = i - 1 from by omega,
      show min (min (i + 1) (n - 1)) (min (n - 1) (i - 1 + 1)) = i - 1 + 1 from by omega,
      integ_lin_rise s h hh a c (i - 1),
      show i - 1 + 1 = i from by omega]
  · simp only [h0, h1, if_true, if_false]
    rw [TT_nodes s h hh,
      if_pos (show max (i - 1) (max 0 i)
        < min (min (i + 1) (n - 1)) (min (n - 1) (i + 1)) from by omega),
      show max (i - 1) (max 0 i) = i from by omega,
      show min (min (i + 1) (n - 1)) (min (n - 1) (i + 1)) = i + 1 from by omega,
      integ_lin_fall s h hh a c i]
  · exfalso; omega

theorem gVal_far (h : K) (n i j : ℕ) (h1 : ¬ i = j) (h2 : ¬ (i + 1 = j ∨ j + 1 = i)) :
    gVal h n i j = 0 := by
  unfold gVal
  rw [if_neg h1, if_neg h2]

set_option maxHeartbeats 1000000 in
/-- The tridiagonal Gram matrix applied to the vector of nodal values of the
linear function reproduces the load vector: the normal equations hold
exactly. -/
theorem row_identity (s h a c : K) (hh : 0 < h) (n j : ℕ) (hn : 2 ≤ n)
    (hj : j ≤ n - 1) :
    (∑ i ∈ Finset.range n, gVal h n j i * (a * nodeX s h i + c))
      = (if 0 < j then
          h * ((a * nodeX s h (j - 1) + c) + 2 * (a * nodeX s h j + c)) / 6 else 0)
        + (if j < n - 1 then
          h * (2 * (a * nodeX s h j + c) + (a * nodeX s h (j + 1) + c)) / 6 else 0) := by
  by_cases h0 : j = 0
  · subst h0
    have hsub : ({0, 1} : Finset ℕ) ⊆ Finset.range n := by
      intro x hx
      simp only [Finset.mem_insert, Finset.mem_singleton] at hx
      rcases hx with rfl | rfl <;> simp only [Finset.mem_range] <;> omega
    rw [← Finset.sum_subset hsub (by
      intro x _ hxw
      simp only [Finset.mem_insert, Finset.mem_singleton] at hxw
      push_neg at hxw
      rw [gVal_far h n 0 x (by omega) (by omega), zero_mul])]
    rw [Finset.sum_pair (by omega : (0 : ℕ) ≠ 1)]
    have hg00 : gVal h n 0 0 = h / 3 := by
      unfold gVal
      rw [if_pos rfl, if_neg (lt_irrefl 0),
        if_pos (show (0 : ℕ) < n - 1 from by omega), zero_add]
    have hg01 : gVal h n 0 1 = h / 6 := by
      unfold gVal
      rw [if_neg (by omega : ¬ (0 : ℕ) = 1), if_pos (Or.inl rfl)]
    rw [hg00, hg01, if_neg (lt_irrefl 0),
      if_pos (show (0 : ℕ) < n - 1 from by omega)]
    ring
  · by_cases hlast : j = n - 1
    · subst hlast
      have hsub : ({n - 2, n - 1} : Finset ℕ) ⊆ Finset.range n := by
        intro x hx
        simp only [Finset.mem_insert, Finset.mem_singleton] at hx
        rcases hx with rfl | rfl <;> simp only [Finset.mem_range] <;> omega
      rw [← Finset.sum_subset hsub (by
        intro x hxr hxw
        rw [Finset.mem_range] at hxr
        simp only [Finset.mem_insert, Finset.mem_singleton] at hxw
        push_neg at hxw
        rw [gVal_far h n (n - 1) x (by omega) (by omega), zero_mul])]
      rw [Finset.sum_pair (by omega : n - 2 ≠ n - 1)]
      have hgA : gVal h n (n - 1) (n - 2) = h / 6 := by
        unfold gVal
        rw [if_neg (by omega : ¬ n - 1 = n - 2), if_pos (Or.inr (by omega))]
      have hgB : gVal h n (n - 1) (n - 1) = h / 3 := by
        unfold gVal
        rw [if_pos rfl, if_pos (show 0 < n - 1 from by omega),
          if_neg (lt_irrefl (n - 1)), add_zero]
      rw [hgA, hgB, if_pos (show 0 < n - 1 from by omega),
        if_neg (lt_irrefl (n - 1)), show n - 1 - 1 = n - 2 from by omega]
      ring
    · obtain ⟨m, rfl⟩ : ∃ m, j = m + 1 := ⟨j - 1, by omega⟩
      have hm2 : m + 2 ≤ n - 1 := by omega
      have hsub : ({m, m + 1, m + 2} : Finset ℕ) ⊆ Finset.range n := by
        intro x hx
        simp only [Finset.mem_insert, Finset.mem_singleton] at hx
        rcases hx with rfl | rfl | rfl <;> simp only [Finset.mem_range] <;> omega
      rw [← Finset.sum_subset hsub (by
        intro x _ hxw
        simp only [Finset.mem_insert, Finset.mem_singleton] at hxw
        push_neg at hxw
        rw [gVal_far h n (m + 1) x (by omega) (by omega), zero_mul])]
      rw [Finset.sum_insert (by
          simp only [Finset.mem_insert, Finset.mem_singleton]
          omega),
        Finset.sum_pair (by omega : m + 1 ≠ m + 2)]
      have hg1 : gVal h n (m + 1) m = h / 6 := by
        unfold gVal
        rw [if_neg (by omega : ¬ m + 1 = m), if_pos (Or.inr rfl)]
      have hg2 : gVal h n (m + 1) (m + 1) = h / 3 + h / 3 := by
        unfold gVal
        rw [if_pos rfl, if_pos (show 0 < m + 1 from by omega),
          if_pos (show m + 1 < n - 1 from by omega)]
      have hg3 : gVal h n (m + 1) (m + 2) = h / 6 := by
        unfold gVal
        rw [if_neg (by omega : ¬ m + 1 = m + 2), if_pos (Or.inl rfl)]
      rw [hg1, hg2, hg3, if_pos (show 0 < m + 1 from by omega),
        if_pos (show m + 1 < n - 1 from by omega),
        show m + 1 - 1 = m from by omega]
      ring

end RhsValues

section GramDet

variable {K : Type _} [LinearOrderedField K]

theorem zip_ofFn_eq {α β : Type _} (n : ℕ) (f : Fin n → α) (g : Fin n → β) :
    (List.ofFn f).zip (List.ofFn g) = List.ofFn (fun i => (f i, g i)) := by
  induction n with
  | zero => rfl
  | succ m ih =>
    rw [List.ofFn_succ, List.ofFn_succ, List.ofFn_succ, List.zip_cons_cons, ih]

theorem gVal_succ (h : K) (n i j : ℕ) (hn : 1 ≤ n) (hi : i < n) (hj : j < n) :
    gVal h (n + 1) i j
      = gVal h n i j + (if i = j ∧ i = n - 1 then h / 3 else 0) := by
  by_cases hij : i = j
  · subst hij
    have L : gVal h (n + 1) i i = (if 0 < i then h / 3 else 0) + h / 3 := by
      unfold gVal
      rw [if_pos rfl, if_pos (show i < n + 1 - 1 from by omega)]
    by_cases hlast : i = n - 1
    · have R : gVal h n i i = (if 0 < i then h / 3 else 0) + 0 := by
        unfold gVal
        rw [if_pos rfl, if_neg (show ¬ i < n - 1 from by omega)]
      rw [L, R, if_pos (show i = i ∧ i = n - 1 from ⟨rfl, hlast⟩)]
      ring
    · have R : gVal h n i i = (if 0 < i then h / 3 else 0) + h / 3 := by
        unfold gVal
        rw [if_pos rfl, if_pos (show i < n - 1 from by omega)]
      rw [L, R, if_neg (show ¬ (i = i ∧ i = n - 1) from fun hc => hlast hc.2)]
      ring
  · have L : gVal h (n + 1) i j = (if i + 1 = j ∨ j + 1 = i then h / 6 else 0) := by
      unfold gVal
      rw [if_neg hij]
    have R : gVal h n i j = (if i + 1 = j ∨ j + 1 = i then h / 6 else 0) := by
      unfold gVal
      rw [if_neg hij]
    rw [L, R, if_neg (show ¬ (i = j ∧ i = n - 1) from fun hc => hij hc.1), add_zero]

/-- The Gram quadratic form against the closed-form tridiagonal entries. -/
def quadForm (h : K) (n : ℕ) (v : ℕ → K) : K :=
  ∑ i ∈ Finset.range n, ∑ j ∈ Finset.range n, v i * gVal h n i j * v j

/-- Interval-wise decomposition of the Gram quadratic form: each mesh cell
contributes a positive multiple of a sum of squares. -/
def quadParts (h : K) (n : ℕ) (v : ℕ → K) : K :=
  ∑ k ∈ Finset.range (n - 1),
    h / 6 * ((v k + v (k + 1)) ^ 2 + v k ^ 2 + v (k + 1) ^ 2)

theorem quadParts_succ (h : K) (m : ℕ) (hm : 1 ≤ m) (v : ℕ → K) :
    quadParts h (m + 1) v
      = quadParts h m v
        + h / 6 * ((v (m - 1) + v m) ^ 2 + v (m - 1) ^ 2 + v m ^ 2) := by
  obtain ⟨p, rfl⟩ : ∃ p, m = p + 1 := ⟨m - 1, by omega⟩
  unfold quadParts
  simp only [Nat.add_sub_cancel]
  rw [Finset.sum_range_succ]

set_option maxHeartbeats 1000000 in
theorem quadForm_succ (h : K) (m : ℕ) (hm : 2 ≤ m) (v : ℕ → K) :
    quadForm h (m + 1) v
      = quadForm h m v + v (m - 1) * (h / 3) * v (m - 1)
        + v (m - 1) * (h / 6) * v m + v m * (h / 6) * v (m - 1)
        + v m * (h / 3) * v m := by
  unfold quadForm
  simp only [Finset.sum_range_succ]
  rw [Finset.sum_add_distrib]
  have hstep : ∀ i ∈ Finset.range m,
      (∑ j ∈ Finset.range m, v i * gVal h (m + 1) i j * v j)
        = (∑ j ∈ Finset.range m, (v i * gVal h m i j * v j
            + v i * (if i = j ∧ i = m - 1 then h / 3 else 0) * v j)) := by
    intro i hi
    rw [Finset.mem_range] at hi
    apply Finset.sum_congr rfl
    intro j hj
    rw [Finset.mem_range] at hj
    rw [gVal_succ h m i j (by omega) hi hj]
    ring
  have hδ : (∑ i ∈ Finset.range m, ∑ j ∈ Finset.range m,
      v i * (if i = j ∧ i = m - 1 then h / 3 else 0) * v j)
      = v (m - 1) * (h / 3) * v (m - 1) := by
    rw [Finset.sum_eq_single (m - 1)
      (fun b _ hne => Finset.sum_eq_zero (fun j _ => by
        rw [if_neg (fun hc => hne hc.2), mul_zero, zero_mul]))
      (fun hns => absurd (Finset.mem_range.mpr (by omega)) hns)]
    rw [Finset.sum_eq_single (m - 1)
      (fun j _ hne => by rw [if_neg (fun hc => hne hc.1.symm), mul_zero, zero_mul])
      (fun hns => absurd (Finset.mem_range.mpr (by omega)) hns)]
    rw [if_pos ⟨rfl, rfl⟩]
  have hA : (∑ i ∈ Finset.range m, ∑ j ∈ Finset.range m,
      v i * gVal h (m + 1) i j * v j)
      = (∑ i ∈ Finset.range m, ∑ j ∈ Finset.range m, v i * gVal h m i j * v j)
        + v (m - 1) * (h / 3) * v (m - 1) := by
    rw [Finset.sum_congr rfl hstep]
    simp only [Finset.sum_add_distrib]
    rw [hδ]
  have hB : (∑ i ∈ Finset.range m, v i * gVal h (m + 1) i m * v m)
      = v (m - 1) * (h / 6) * v m := by
    rw [Finset.sum_eq_single (m - 1)
      (fun b hb hne => by
        rw [Finset.mem_range] at hb
        rw [gVal_far h (m + 1) b m (by omega) (by omega), mul_zero, zero_mul])
      (fun hns => absurd (Finset.mem_range.mpr (by omega)) hns)]
    have hval : gVal h (m + 1) (m - 1) m = h / 6 := by
      unfold gVal
      rw [if_neg (by omega), if_pos (Or.inl (by omega))]
    rw [hval]
  have hC : (∑ j ∈ Finset.range m, v m * gVal h (m + 1) m j * v j)
      = v m * (h / 6) * v (m - 1) := by
    rw [Finset.sum_eq_single (m - 1)
      (fun b hb hne => by
        rw [Finset.mem_range] at hb
        rw [gVal_far h (m + 1) m b (by omega) (by omega), mul_zero, zero_mul])
      (fun hns => absurd (Finset.mem_range.mpr (by omega)) hns)]
    have hval : gVal h (m + 1) m (m - 1) = h / 6 := by
      unfold gVal
      rw [if_neg (by omega), if_pos (Or.inr (by omega))]
    rw [hval]
  have hD : gVal h (m + 1) m m = h / 3 := by
    unfold gVal
    rw [if_pos rfl, if_pos (by omega), if_neg (by omega), add_zero]
  rw [hA, hB, hC, hD]
  ring

theorem quadForm_eq (h : K) (n : ℕ) (hn : 2 ≤ n) (v : ℕ → K) :
    quadForm h n v = quadParts h n v := by
  induction n, hn using Nat.le_induction with
  | base =>
    unfold quadForm quadParts gVal
    norm_num [Finset.sum_range_succ]
    ring
  | succ m hm ih =>
    rw [quadForm_succ h m hm v, ih, quadParts_succ h m (by omega) v]
    ring

theorem quadParts_pos (h : K) (hh : 0 < h) (n : ℕ) (hn : 2 ≤ n) (v : ℕ → K)
    (i0 : ℕ) (hi0 : i0 < n) (hv : v i0 ≠ 0) : 0 < quadParts h n v := by
  unfold quadParts
  apply Finset.sum_pos'
  · intro k _
    positivity
  · have hsq : 0 < v i0 ^ 2 :=
      lt_of_le_of_ne (sq_nonneg _) (Ne.symm (pow_ne_zero 2 hv))
    by_cases hc : i0 < n - 1
    · refine ⟨i0, Finset.mem_range.mpr (by omega), ?_⟩
      have h6 : 0 < h / 6 := by positivity
      nlinarith [sq_nonneg (v i0 + v (i0 + 1)), sq_nonneg (v (i0 + 1))]
    · refine ⟨n - 2, Finset.mem_range.mpr (by omega), ?_⟩
      have he : n - 2 + 1 = i0 := by omega
      rw [he]
      have h6 : 0 < h / 6 := by positivity
      nlinarith [sq_nonneg (v (n - 2) + v i0), sq_nonneg (v (n - 2))]

set_option maxHeartbeats 1000000 in
/-- The closed-form tridiagonal Gram matrix is nonsingular: its quadratic
form is positive definite. -/
theorem gram0_det_ne_zero (h : K) (hh : 0 < h) (n : ℕ) (hn : 2 ≤ n) :
    (Matrix.of fun i j : Fin n => gVal h n (i : ℕ) (j : ℕ)).det ≠ 0 := by
  intro hdet
  obtain ⟨u, hune, hu0⟩ := (Matrix.exists_mulVec_eq_zero_iff).mpr hdet
  set v : ℕ → K := fun k => if hk : k < n then u ⟨k, hk⟩ else 0 with hv
  have hvu : ∀ j : Fin n, v (j : ℕ) = u j := by
    intro j
    rw [hv]
    simp only [dif_pos j.isLt, Fin.eta]
  have hform : quadForm h n v = 0 := by
    unfold quadForm
    apply Finset.sum_eq_zero
    intro i hi
    rw [Finset.mem_range] at hi
    have hrow : (∑ j ∈ Finset.range n, gVal h n i j * v j) = 0 := by
      have hthis := congrFun hu0 ⟨i, hi⟩
      rw [Pi.zero_apply] at hthis
      calc (∑ j ∈ Finset.range n, gVal h n i j * v j)
          = ∑ j : Fin n, gVal h n i (j : ℕ) * v (j : ℕ) :=
            (Fin.sum_univ_eq_sum_range (fun j => gVal h n i j * v j) n).symm
        _ = ∑ j : Fin n, (Matrix.of fun i j : Fin n => gVal h n (i : ℕ) (j : ℕ))
              ⟨i, hi⟩ j * u j := by
            apply Finset.sum_congr rfl
            intro j _
            rw [hvu j]
            rfl
        _ = 0 := hthis
    calc (∑ j ∈ Finset.range n, v i * gVal h n i j * v j)
        = v i * ∑ j ∈ Finset.range n, gVal h n i j * v j := by
          rw [Finset.mul_sum]
          apply Finset.sum_congr rfl
          intro j _
          ring
      _ = 0 := by rw [hrow, mul_zero]
  obtain ⟨i0, hi0⟩ := Function.ne_iff.mp hune
  have hvne : v (i0 : ℕ) ≠ 0 := by
    rw [hvu i0]
    exact hi0
  have hpos := quadParts_pos h hh n hn v (i0 : ℕ) i0.isLt hvne
  rw [← quadForm_eq h n hn v, hform] at hpos
  exact lt_irrefl 0 hpos

end GramDet

section ProjectionMain

variable {K : Type _} [LinearOrderedField K]

set_option maxHeartbeats 2000000 in
/-- Projecting the linear function on the cured first-order nodal base solves
the normal equations exactly and returns the nodal values of the function. -/
theorem projectOnFuncs_lin (s h a c : K) (hh : 0 < h) (n : ℕ) (hn : 2 ≤ n) :
    projectOnFuncs (linFunc a c (nodeX s h 0) (nodeX s h (n - 1)))
        (List.ofFn fun i : Fin n => cureHat s h n (i : ℕ))
      = List.ofFn fun i : Fin n => a * nodeX s h (i : ℕ) + c := by
  set f := linFunc a c (nodeX s h 0) (nodeX s h (n - 1)) with hf
  set B := List.ofFn fun i : Fin n => cureHat s h n (i : ℕ) with hB
  have hBlen : B.length = n := List.length_ofFn _
  have hBget : ∀ i : Fin B.length, B.get i = cureHat s h n (i : ℕ) := by
    intro i
    exact List.get_ofFn _ i
  have hG : ∀ i j : Fin B.length, gramMatrix B i j = gVal h n (i : ℕ) (j : ℕ) := by
    intro i j
    have hi' : (i : ℕ) ≤ n - 1 := by
      have h' := i.isLt
      omega
    have hj' : (j : ℕ) ≤ n - 1 := by
      have h' := j.isLt
      omega
    show dot_product_l2 (B.get i) (B.get j) = _
    rw [hBget i, hBget j]
    exact dot_cureHat_val s h hh n (i : ℕ) (j : ℕ) hn hi' hj'
  set w : Fin B.length → K := fun i => a * nodeX s h (i : ℕ) + c with hw
  have hrhs : (fun i : Fin B.length => dot_product_l2 f (B.get i))
      = Matrix.mulVec (gramMatrix B) w := by
    funext i
    have hi' : (i : ℕ) ≤ n - 1 := by
      have h' := i.isLt
      omega
    have hmv : Matrix.mulVec (gramMatrix B) w i
        = ∑ j ∈ Finset.range n, gVal h n (i : ℕ) j * (a * nodeX s h j + c) := by
      show (∑ j : Fin B.length, gramMatrix B i j * w j) = _
      calc (∑ j : Fin B.length, gramMatrix B i j * w j)
          = ∑ j : Fin B.length,
              gVal h n (i : ℕ) ((j : ℕ)) * (a * nodeX s h ((j : ℕ)) + c) := by
            apply Finset.sum_congr rfl
            intro j _
            rw [hG i j]
        _ = ∑ j ∈ Finset.range B.length,
              gVal h n (i : ℕ) j * (a * nodeX s h j + c) :=
            Fin.sum_univ_eq_sum_range
              (fun j => gVal h n (i : ℕ) j * (a * nodeX s h j + c)) B.length
        _ = ∑ j ∈ Finset.range n,
              gVal h n (i : ℕ) j * (a * nodeX s h j + c) := by
            have hr : Finset.range B.length = Finset.range n := by rw [hBlen]
            rw [hr]
    rw [hBget i, hf, dot_lin_cureHat_val s h a c hh n (i : ℕ) hn hi', hmv,
      row_identity s h a c hh n (i : ℕ) hn hi']
  have hdet : (gramMatrix B).det ≠ 0 := by
    have hsub : gramMatrix B
        = (Matrix.of fun i j : Fin n => gVal h n (i : ℕ) (j : ℕ)).submatrix
            (finCongr hBlen) (finCongr hBlen) := by
      ext i j
      rw [hG i j]
      rfl
    rw [hsub, Matrix.det_submatrix_equiv_self]
    exact gram0_det_ne_zero h hh n hn
  have hcramer : Matrix.cramer (gramMatrix B) (fun i => dot_product_l2 f (B.get i))
      = (gramMatrix B).det • w := by
    rw [hrhs, Matrix.cramer_eq_adjugate_mulVec, Matrix.mulVec_mulVec,
      Matrix.adjugate_mul, Matrix.smul_mulVec_assoc, Matrix.one_mulVec]
  apply List.ext_getElem
  · simp [projectOnFuncs, hBlen]
  · intro i h1 h2
    have hiB : i < B.length := by
      simpa [projectOnFuncs] using h1
    simp only [projectOnFuncs, List.getElem_ofFn]
    show Matrix.cramer (gramMatrix B) (fun i => dot_product_l2 f (B.get i))
        ⟨i, hiB⟩ / (gramMatrix B).det = a * nodeX s h i + c
    rw [congrFun hcramer ⟨i, hiB⟩, Pi.smul_apply, smul_eq_mul,
      mul_div_cancel_left₀ _ hdet]

end ProjectionMain

section BackProjection

variable {K : Type _} [LinearOrderedField K]

theorem pwEval_eq_of_find (ps : List (Piece K)) (z : K) (p : Piece K)
    (hf : ps.find? (fun p => decide (p.lo ≤ z) && decide (z ≤ p.hi)) = some p) :
    pwEval ps z = evalP p.poly z := by
  unfold pwEval
  rw [hf]

theorem pwEval_eq_zero_of_find (ps : List (Piece K)) (z : K)
    (hf : ps.find? (fun p => decide (p.lo ≤ z) && decide (z ≤ p.hi)) = none) :
    pwEval ps z = 0 := by
  unfold pwEval
  rw [hf]

set_option maxHeartbeats 1000000 in
/-- Pointwise closed form of a cured hat: the rising edge wins at shared
nodes (matching the first-match semantics of the piece lookup), the value is
0 outside the support. -/
theorem pwEval_cureHat (s h : K) (hh : 0 < h) (n i : ℕ) (hn : 2 ≤ n)
    (hi : i ≤ n - 1) (z : K) :
    pwEval (cureHat s h n i).pieces z
      = if nodeX s h (i - 1) ≤ z ∧ z ≤ nodeX s h i ∧ 0 < i then
          (z - nodeX s h (i - 1)) / h
        else if nodeX s h i ≤ z ∧ z ≤ nodeX s h (i + 1) ∧ i < n - 1 then
          (nodeX s h (i + 1) - z) / h
        else 0 := by
  have hne : h ≠ 0 := ne_of_gt hh
  have hrise : ∀ k : ℕ, evalP (risePoly s h k) z = (z - nodeX s h k) / h := by
    intro k
    simp only [risePoly, evalP]
    field_simp
    ring
  have hfall : ∀ k : ℕ, evalP (fallPoly s h k) z = (nodeX s h (k + 1) - z) / h := by
    intro k
    simp only [fallPoly, evalP]
    field_simp
    ring
  rw [cureHat_pieces s h n i hh hn hi]
  by_cases h0 : 0 < i <;> by_cases h1 : i < n - 1
  · rw [if_pos h0, if_pos h1, List.singleton_append]
    have hup : risePc s h (i - 1)
        = ⟨nodeX s h (i - 1), nodeX s h i, risePoly s h (i - 1)⟩ := by
      unfold risePc
      rw [show i - 1 + 1 = i from by omega]
    rw [hup]
    by_cases hr : nodeX s h (i - 1) ≤ z ∧ z ≤ nodeX s h i
    · rw [pwEval_eq_of_find _ z _ (List.find?_cons_of_pos _ (by
        simp only [Bool.and_eq_true, decide_eq_true_eq]
        exact ⟨hr.1, hr.2⟩)), if_pos ⟨hr.1, hr.2, h0⟩]
      exact hrise (i - 1)
    · by_cases hfc : nodeX s h i ≤ z ∧ z ≤ nodeX s h (i + 1)
      · have hfind :
            List.find? (fun p => decide (p.lo ≤ z) && decide (z ≤ p.hi))
              ((⟨nodeX s h (i - 1), nodeX s h i, risePoly s h (i - 1)⟩ : Piece K)
                :: [fallPc s h i]) = some (fallPc s h i) := by
          rw [List.find?_cons_of_neg _ (by
            simp only [Bool.and_eq_true, decide_eq_true_eq]
            exact hr)]
          exact List.find?_cons_of_pos _ (by
            simp only [Bool.and_eq_true, decide_eq_true_eq]
            exact ⟨hfc.1, hfc.2⟩)
        rw [pwEval_eq_of_find _ z _ hfind, if_neg (fun hc => hr ⟨hc.1, hc.2.1⟩),
          if_pos ⟨hfc.1, hfc.2, h1⟩]
        exact hfall i
      · have hfind :
            List.find? (fun p => decide (p.lo ≤ z) && decide (z ≤ p.hi))
              ((⟨nodeX s h (i - 1), nodeX s h i, risePoly s h (i - 1)⟩ : Piece K)
                :: [fallPc s h i]) = none := by
          rw [List.find?_cons_of_neg _ (by
            simp only [Bool.and_eq_true, decide_eq_true_eq]
            exact hr)]
          rw [List.find?_cons_of_neg _ (by
            simp only [Bool.and_eq_true, decide_eq_true_eq]
            exact hfc)]
          rfl
        rw [pwEval_eq_zero_of_find _ z hfind, if_neg (fun hc => hr ⟨hc.1, hc.2.1⟩),
          if_neg (fun hc => hfc ⟨hc.1, hc.2.1⟩)]
  · rw [if_pos h0, if_neg h1, List.append_nil]
    have hup : risePc s h (i - 1)
        = ⟨nodeX s h (i - 1), nodeX s h i, risePoly s h (i - 1)⟩ := by
      unfold risePc
      rw [show i - 1 + 1 = i from by omega]
    rw [hup]
    by_cases hr : nodeX s h (i - 1) ≤ z ∧ z ≤ nodeX s h i
    · rw [pwEval_eq_of_find _ z _ (List.find?_cons_of_pos _ (by
        simp only [Bool.and_eq_true, decide_eq_true_eq]
        exact ⟨hr.1, hr.2⟩)), if_pos ⟨hr.1, hr.2, h0⟩]
      exact hrise (i - 1)
    · have hfind :
          List.find? (fun p => decide (p.lo ≤ z) && decide (z ≤ p.hi))
            [(⟨nodeX s h (i - 1), nodeX s h i, risePoly s h (i - 1)⟩ : Piece K)]
            = none := by
        rw [List.find?_cons_of_neg _ (by
          simp only [Bool.and_eq_true, decide_eq_true_eq]
          exact hr)]
        rfl
      rw [pwEval_eq_zero_of_find _ z hfind, if_neg (fun hc => hr ⟨hc.1, hc.2.1⟩),
        if_neg (fun hc => h1 hc.2.2)]
  · rw [if_neg h0, if_pos h1, List.nil_append]
    by_cases hfc : nodeX s h i ≤ z ∧ z ≤ nodeX s h (i + 1)
    · rw [pwEval_eq_of_find _ z _ (List.find?_cons_of_pos _ (by
        simp only [Bool.and_eq_true, decide_eq_true_eq]
        exact ⟨hfc.1, hfc.2⟩)), if_neg (fun hc => h0 hc.2.2),
        if_pos ⟨hfc.1, hfc.2, h1⟩]
      exact hfall i
    · have hfind :
          List.find? (fun p => decide (p.lo ≤ z) && decide (z ≤ p.hi))
            [fallPc s h i] = none := by
        rw [List.find?_cons_of_neg _ (by
          simp only [Bool.and_eq_true, decide_eq_true_eq]
          exact hfc)]
        rfl
      rw [pwEval_eq_zero_of_find _ z hfind, if_neg (fun hc => h0 hc.2.2),
        if_neg (fun hc => hfc ⟨hc.1, hc.2.1⟩)]
  · exfalso
    omega

theorem exists_bracket (s h : K) (z : K) (h1 : nodeX s h 0 ≤ z) :
    ∀ m : ℕ, 1 ≤ m → z ≤ nodeX s h m →
      ∃ k, k + 1 ≤ m ∧ nodeX s h k ≤ z ∧ z ≤ nodeX s h (k + 1) := by
  intro m hm
  induction m, hm using Nat.le_induction with
  | base =>
    intro h2
    exact ⟨0, le_refl 1, h1, h2⟩
  | succ m hm ih =>
    intro h2
    by_cases hz : z ≤ nodeX s h m
    · obtain ⟨k, hk1, hk2, hk3⟩ := ih hz
      exact ⟨k, by omega, hk2, hk3⟩
    · exact ⟨m, le_refl (m + 1), le_of_not_le hz, h2⟩

end BackProjection

section RoundTrip

variable {K : Type _} [LinearOrderedField K]

set_option maxHeartbeats 2000000 in
/-- Back-projecting the nodal values of the linear function through the cured
hat base reproduces the function at every point of the cured interval. -/
theorem back_project_lin (s h a c : K) (hh : 0 < h) (n : ℕ) (hn : 2 ≤ n) (z : K)
    (hz1 : nodeX s h 0 ≤ z) (hz2 : z ≤ nodeX s h (n - 1)) :
    back_project_from_base (List.ofFn fun i : Fin n => a * nodeX s h (i : ℕ) + c)
        (List.ofFn fun i : Fin n => cureHat s h n (i : ℕ)) z = a * z + c := by
  have hne : h ≠ 0 := ne_of_gt hh
  obtain ⟨k, hk1, hk2, hk3⟩ :=
    exists_bracket s h z hz1 (n - 1) (by omega) hz2
  unfold back_project_from_base
  rw [zip_ofFn_eq n (fun i : Fin n => a * nodeX s h (i : ℕ) + c)
      (fun i : Fin n => cureHat s h n (i : ℕ)),
    List.map_ofFn, List.sum_ofFn]
  show (∑ i : Fin n,
      (a * nodeX s h (i : ℕ) + c) * pwEval (cureHat s h n (i : ℕ)).pieces z) = _
  rw [Fin.sum_univ_eq_sum_range
    (fun t => (a * nodeX s h t + c) * pwEval (cureHat s h n t).pieces z) n]
  have hsub : ({k, k + 1} : Finset ℕ) ⊆ Finset.range n := by
    intro x hx
    simp only [Finset.mem_insert, Finset.mem_singleton] at hx
    rcases hx with rfl | rfl <;> simp only [Finset.mem_range] <;> omega
  have hzero : ∀ b ∈ Finset.range n, b ∉ ({k, k + 1} : Finset ℕ) →
      (a * nodeX s h b + c) * pwEval (cureHat s h n b).pieces z = 0 := by
    intro b hbr hbw
    rw [Finset.mem_range] at hbr
    simp only [Finset.mem_insert, Finset.mem_singleton] at hbw
    push_neg at hbw
    rw [pwEval_cureHat s h hh n b hn (by omega) z]
    by_cases hb1 : nodeX s h (b - 1) ≤ z ∧ z ≤ nodeX s h b ∧ 0 < b
    · rw [if_pos hb1]
      rcases lt_trichotomy b k with hbk | rfl | hbk
      · exfalso
        have hlt : nodeX s h b < nodeX s h k := nodeX_strictMono s h hh hbk
        linarith [hb1.2.1, hk2]
      · exact absurd rfl hbw.1
      · have hble : nodeX s h (k + 1) ≤ nodeX s h (b - 1) :=
          nodeX_mono s h hh (by omega)
        have hzb : z = nodeX s h (b - 1) :=
          le_antisymm (by linarith [hk3]) hb1.1
        rw [hzb, sub_self, zero_div, mul_zero]
    · rw [if_neg hb1]
      by_cases hb2 : nodeX s h b ≤ z ∧ z ≤ nodeX s h (b + 1) ∧ b < n - 1
      · rw [if_pos hb2]
        rcases lt_trichotomy b k with hbk | rfl | hbk
        · have hble : nodeX s h (b + 1) ≤ nodeX s h k := nodeX_mono s h hh (by omega)
          have hzb : z = nodeX s h (b + 1) :=
            le_antisymm hb2.2.1 (by linarith [hk2])
          rw [hzb, sub_self, zero_div, mul_zero]
        · exact absurd rfl hbw.1
        · exfalso
          have hlt : nodeX s h (k + 1) < nodeX s h b := nodeX_strictMono s h hh (by omega)
          linarith [hb2.1, hk3]
      · rw [if_neg hb2, mul_zero]
  rw [← Finset.sum_subset hsub hzero, Finset.sum_pair (by omega : k ≠ k + 1)]
  have e1 : pwEval (cureHat s h n k).pieces z = (nodeX s h (k + 1) - z) / h := by
    rw [pwEval_cureHat s h hh n k hn (by omega) z]
    by_cases hc1 : nodeX s h (k - 1) ≤ z ∧ z ≤ nodeX s h k ∧ 0 < k
    · rw [if_pos hc1]
      have hzk : z = nodeX s h k := le_antisymm hc1.2.1 hk2
      have d1 : nodeX s h k - nodeX s h (k - 1) = h := by
        have hd := nodeX_succ_sub s h (k - 1)
        rw [show k - 1 + 1 = k from by omega] at hd
        exact hd
      have d2 : nodeX s h (k + 1) - nodeX s h k = h := nodeX_succ_sub s h k
      rw [hzk, d1, d2]
    · rw [if_neg hc1, if_pos ⟨hk2, hk3, by omega⟩]
  have e2 : pwEval (cureHat s h n (k + 1)).pieces z = (z - nodeX s h k) / h := by
    rw [pwEval_cureHat s h hh n (k + 1) hn (by omega) z,
      show k + 1 - 1 = k from by omega, if_pos ⟨hk2, hk3, by omega⟩]
  rw [e1, e2]
  have d2 : nodeX s h (k + 1) = nodeX s h k + h := by
    have hd := nodeX_succ_sub s h k
    linarith
  rw [d2]
  field_simp
  ring

end RoundTrip

section ClaimC2

variable {K : Type _} [LinearOrderedField K]

theorem nodeX_zero (s h : K) : nodeX s h 0 = s := by
  unfold nodeX
  push_cast
  ring

theorem nodeX_last (s e : K) (n : ℕ) (hn : 2 ≤ n) :
    nodeX s ((e - s) / ((n : K) - 1)) (n - 1) = e := by
  have h1 : (1 : ℕ) ≤ n := by omega
  have h2K : (2 : K) ≤ (n : K) := by exact_mod_cast hn
  have hne : (n : K) - 1 ≠ 0 := ne_of_gt (by linarith)
  unfold nodeX
  rw [Nat.cast_sub h1, Nat.cast_one]
  field_simp

theorem coreList_all (L : List (PyFunction K)) :
    (L.map CoreObj.func).all
      (fun b => match b with | CoreObj.func _ => true | CoreObj.raw => false)
      = true := by
  induction L with
  | nil => rfl
  | cons x xs ih => exact ih

theorem coreList_filterMap (L : List (PyFunction K)) :
    (L.map CoreObj.func).filterMap
      (fun b => match b with | CoreObj.func g => some g | CoreObj.raw => none)
      = L := by
  induction L with
  | nil => rfl
  | cons x xs ih => exact congrArg (List.cons x) ih

theorem coreList_all_raw (L1 L2 : List (CoreObj K)) :
    ((L1 ++ CoreObj.raw :: L2).all
      (fun b => match b with | CoreObj.func _ => true | CoreObj.raw => false))
      = false := by
  induction L1 with
  | nil => rfl
  | cons x xs ih =>
    rw [List.cons_append, List.all_cons, ih, Bool.and_false]

set_option maxHeartbeats 1000000 in
/-- C2: for every linear function `a*x + c` on `(s, e)` and the first-order
Lagrange nodal base cured over `(s, e)` with `n ≥ 2` nodes,
`project_on_base` returns exactly the vector of the function's values at the
nodes; the round trip `back_project_from_base (project_on_base f B) B`
reproduces `a*z + c` at every `z` of the interval; `project_on_base` fails
with a type error when its first argument is not Function-kind or when the
base contains a non-Function fraction. -/
theorem C2_project_on_base_spec (s e a c : K) (n : ℕ) (hse : s < e) (hn : 2 ≤ n) :
    project_on_base (CoreObj.func (linFunc a c s e))
        ((cure_interval s e n).2.map CoreObj.func)
      = Except.ok ((cure_interval s e n).1.map (fun x => a * x + c))
    ∧ (∀ w, project_on_base (CoreObj.func (linFunc a c s e))
          ((cure_interval s e n).2.map CoreObj.func) = Except.ok w →
        ∀ z, s ≤ z → z ≤ e →
          back_project_from_base w (cure_interval s e n).2 z = a * z + c)
    ∧ project_on_base (CoreObj.raw : CoreObj K)
        ((cure_interval s e n).2.map CoreObj.func)
      = Except.error (Err.typeError "input must be a Function")
    ∧ (∀ (f0 : PyFunction K) (L1 L2 : List (CoreObj K)),
        project_on_base (CoreObj.func f0) (L1 ++ CoreObj.raw :: L2)
          = Except.error (Err.typeError "base must contain Functions")) := by
  have h2K : (2 : K) ≤ (n : K) := by exact_mod_cast hn
  set h := (e - s) / ((n : K) - 1) with hhdef
  have hh : 0 < h := by
    rw [hhdef]
    exact div_pos (by linarith) (by linarith)
  have hb2 : (cure_interval s e n).2
      = List.ofFn fun i : Fin n => cureHat s h n (i : ℕ) := rfl
  have hb1 : (cure_interval s e n).1
      = List.ofFn fun i : Fin n => nodeX s h (i : ℕ) := rfl
  have hs0 : nodeX s h 0 = s := nodeX_zero s h
  have hsN : nodeX s h (n - 1) = e := nodeX_last s e n hn
  have hl : linFunc a c s e = linFunc a c (nodeX s h 0) (nodeX s h (n - 1)) := by
    rw [hs0, hsN]
  have hmain : project_on_base (CoreObj.func (linFunc a c s e))
      ((cure_interval s e n).2.map CoreObj.func)
      = Except.ok ((cure_interval s e n).1.map (fun x => a * x + c)) := by
    simp only [project_on_base]
    rw [if_pos (coreList_all _), coreList_filterMap, hb2, hb1, List.map_ofFn, hl,
      projectOnFuncs_lin s h a c hh n hn]
    rfl
  refine ⟨hmain, ?_, ?_, ?_⟩
  · intro w hw z hz1 hz2
    have hww : (cure_interval s e n).1.map (fun x => a * x + c) = w :=
      Except.ok.inj (hmain.symm.trans hw)
    rw [← hww, hb1, hb2, List.map_ofFn]
    exact back_project_lin s h a c hh n hn z
      (by rw [hs0]; exact hz1) (by rw [hsN]; exact hz2)
  · rfl
  · intro f0 L1 L2
    simp only [project_on_base]
    rw [if_neg (by simp [coreList_all_raw L1 L2])]

/-- Concrete instance of C2 on the unit interval with two nodes. -/
theorem C2_project_on_base_spec_witness :
    (0 : ℚ) < 1 ∧ 2 ≤ 2
    ∧ (project_on_base (CoreObj.func (linFunc 1 0 (0 : ℚ) 1))
          ((cure_interval (0 : ℚ) 1 2).2.map CoreObj.func)
        = Except.ok ((cure_interval (0 : ℚ) 1 2).1.map (fun x => 1 * x + 0))
      ∧ (∀ w, project_on_base (CoreObj.func (linFunc 1 0 (0 : ℚ) 1))
            ((cure_interval (0 : ℚ) 1 2).2.map CoreObj.func) = Except.ok w →
          ∀ z, (0 : ℚ) ≤ z → z ≤ 1 →
            back_project_from_base w (cure_interval (0 : ℚ) 1 2).2 z
              = 1 * z + 0)
      ∧ project_on_base (CoreObj.raw : CoreObj ℚ)
          ((cure_interval (0 : ℚ) 1 2).2.map CoreObj.func)
        = Except.error (Err.typeError "input must be a Function")
      ∧ (∀ (f0 : PyFunction ℚ) (L1 L2 : List (CoreObj ℚ)),
          project_on_base (CoreObj.func f0) (L1 ++ CoreObj.raw :: L2)
            = Except.error (Err.typeError "base must contain Functions"))) :=
  ⟨by norm_num, le_refl 2,
    C2_project_on_base_spec 0 1 1 0 2 (by norm_num) (le_refl 2)⟩

end ClaimC2
